import Mathlib

/-!
Shallow embedding of the Chess-Engine repository (src/main.py) in Lean 4.

The program is a single Python class `ChessEngine` operating on an immutable
`GameState` dataclass.  Pure methods become Lean functions; methods that read
the engine's own mutable `self.current_state` take it as an explicit extra
argument `selfState` (this matters: `handle_promotion` reads
`self.current_state.board`, not the board it was handed, so the pseudo-move
generators and `get_all_legal_moves` are functions of BOTH the engine's own
state and the argument state).  The mutable session (`current_state` plus
`history`) becomes a `Session` structure, and the exception-raising
`make_move` becomes an `Except`-returning function: a raise aborts the method
before any mutation, so the error branch returns no new session.

Machine-level notes on the translation:
* a Python board cell is a one-character string; we use `Char`.
* Python ints are `Int`; all board indices reached by the embedded code are
  guarded in range exactly where the source guards them.
* `board[r][c]` becomes `cell`, total with default ' ' (every read performed
  by the source on the paths modelled here is in range).
* the source's unbounded `while True` ray walks leave the 8×8 board after at
  most 8 steps; they are embedded with fuel 8, and the attack scanner's
  `for _ in range(8)` is fuel 8 exactly.
* `_from_algebraic` can raise (IndexError on a short label, ValueError when
  `int(rank)` fails); it is embedded as an `Option`-returning function
  `from_algebraic`, with `from_algebraic!` the total variant used on the
  internal paths where the source calls it on labels it itself produced.
-/

namespace ChessEngine

abbrev Board := List (List Char)

structure GameState where
  board : Board
  turn : String
  castling_rights : String
  en_passant_target : Option String
  halfmove_clock : Nat
  fullmove_number : Nat
deriving DecidableEq

/-- `board[r][c]` (total; every modelled read is range-guarded in the source). -/
def cell (b : Board) (r c : Int) : Char :=
  (b.getD r.toNat []).getD c.toNat ' '

/-- `new_board[r][c] = x` on the copied board. -/
def setCell (b : Board) (r c : Int) (x : Char) : Board :=
  b.set r.toNat ((b.getD r.toNat []).set c.toNat x)

/-- `0 <= r < 8 and 0 <= c < 8`. -/
def inB (r c : Int) : Bool :=
  0 ≤ r && r < 8 && 0 ≤ c && c < 8

/-- `_to_algebraic`: `chr(ord('a') + col) + str(8 - row)`. -/
def to_algebraic (row col : Int) : String :=
  ⟨[Char.ofNat (97 + col).toNat, Char.ofNat (48 + (8 - row)).toNat]⟩

/-- `_from_algebraic`: reads the first two characters, `ord(file) - ord('a')`
and `8 - int(rank)`.  `none` models the raising paths (label shorter than two
characters, or a rank character `int` cannot parse). -/
def from_algebraic (s : String) : Option (Int × Int) :=
  match s.data with
  | f :: rk :: _ =>
      if rk.isDigit then
        some ((8 : Int) - ((rk.toNat : Int) - 48), (f.toNat : Int) - 97)
      else
        none
  | _ => none

/-- Total variant for the internal call sites, where the source only ever
passes labels it generated itself (so the `none` branch is never taken). -/
def from_algebraic! (s : String) : Int × Int :=
  (from_algebraic s).getD (0, 0)

def initial_board : Board :=
  [['r', 'n', 'b', 'q', 'k', 'b', 'n', 'r'],
   ['p', 'p', 'p', 'p', 'p', 'p', 'p', 'p'],
   [' ', ' ', ' ', ' ', ' ', ' ', ' ', ' '],
   [' ', ' ', ' ', ' ', ' ', ' ', ' ', ' '],
   [' ', ' ', ' ', ' ', ' ', ' ', ' ', ' '],
   [' ', ' ', ' ', ' ', ' ', ' ', ' ', ' '],
   ['P', 'P', 'P', 'P', 'P', 'P', 'P', 'P'],
   ['R', 'N', 'B', 'Q', 'K', 'B', 'N', 'R']]

def initial_state : GameState :=
  { board := initial_board
    turn := "w"
    castling_rights := "KQkq"
    en_passant_target := none
    halfmove_clock := 0
    fullmove_number := 1 }

/-- Python `ch in s` on a string (e.g. `'K' in state.castling_rights`). -/
def str_contains (s : String) (ch : Char) : Bool :=
  s.data.contains ch

/-- Python `s.replace(ch, '')` for a single-character pattern: removes every
occurrence of `ch`. -/
def replace_char (s : String) (ch : Char) : String :=
  ⟨s.data.filter fun c => c ≠ ch⟩

def straightDirs : List (Int × Int) := [(-1, 0), (1, 0), (0, -1), (0, 1)]

def diagonalDirs : List (Int × Int) := [(-1, -1), (-1, 1), (1, -1), (1, 1)]

def knightDirs : List (Int × Int) :=
  [(-2, -1), (-2, 1), (-1, -2), (-1, 2), (1, -2), (1, 2), (2, -1), (2, 1)]

def kingDirs : List (Int × Int) :=
  [(-1, -1), (-1, 0), (-1, 1), (0, -1), (0, 1), (1, -1), (1, 0), (1, 1)]

/-- One sliding ray of `get_rook_moves` / `get_bishop_moves`: step until the
edge, collecting empty squares, and a capture square of the opposite color. -/
def slide (board : Board) (isWhite : Bool) (startSq : String) :
    Int → Int → Int → Int → Nat → List String
  | _, _, _, _, 0 => []
  | r, c, dr, dc, fuel + 1 =>
      let row := r + dr
      let col := c + dc
      if inB row col then
        let target := cell board row col
        let mv := startSq ++ to_algebraic row col
        if target = ' ' then
          mv :: slide board isWhite startSq row col dr dc fuel
        else if isWhite ≠ target.isUpper then [mv]
        else []
      else []

/-- `get_rook_moves`. -/
def get_rook_moves (board : Board) (r c : Int) : List String :=
  let startSq := to_algebraic r c
  let isW := (cell board r c).isUpper
  straightDirs.flatMap fun d => slide board isW startSq r c d.1 d.2 8

/-- `get_bishop_moves`. -/
def get_bishop_moves (board : Board) (r c : Int) : List String :=
  let startSq := to_algebraic r c
  let isW := (cell board r c).isUpper
  [((-1 : Int), (-1 : Int)), (-1, 1), (1, 1), (1, -1)].flatMap fun d =>
    slide board isW startSq r c d.1 d.2 8

/-- `get_queen_moves`. -/
def get_queen_moves (board : Board) (r c : Int) : List String :=
  get_rook_moves board r c ++ get_bishop_moves board r c

/-- Offset-set generator shared by the knight and king methods. -/
def offset_moves (dirs : List (Int × Int)) (board : Board) (r c : Int) :
    List String :=
  let startSq := to_algebraic r c
  let isW := (cell board r c).isUpper
  dirs.filterMap fun d =>
    let row := r + d.1
    let col := c + d.2
    if inB row col then
      let target := cell board row col
      let mv := startSq ++ to_algebraic row col
      if target = ' ' then some mv
      else if isW ≠ target.isUpper then some mv
      else none
    else none

/-- `get_knight_moves`. -/
def get_knight_moves (board : Board) (r c : Int) : List String :=
  offset_moves knightDirs board r c

/-- `get_king_moves`. -/
def get_king_moves (board : Board) (r c : Int) : List String :=
  offset_moves kingDirs board r c

def promotionPieces : List Char := ['r', 'n', 'b', 'q']

/-- `handle_promotion`: NOTE the source reads `self.current_state.board`
(here `selfState.board`), not the board the move was generated on. -/
def handle_promotion (selfState : GameState) (mv : String)
    (promotion_piece : Char) : String :=
  let sp := from_algebraic! ⟨mv.data.take 2⟩
  let ep := from_algebraic! ⟨(mv.data.drop 2).take 2⟩
  let piece := cell selfState.board sp.1 sp.2
  if piece.toLower = 'p' ∧
      ((piece.isUpper ∧ ep.1 = 0) ∨ (piece.isLower ∧ ep.1 = 7)) then
    mv ++ ⟨[promotion_piece.toLower]⟩
  else mv

/-- `get_pawn_moves`.  The final loop expands EVERY generated move through
`handle_promotion` once per piece in `promotionPieces`. -/
def get_pawn_moves (selfState : GameState) (board : Board) (r c : Int) :
    List String :=
  let startSq := to_algebraic r c
  let pawn := cell board r c
  let isW := pawn.isUpper
  let rank : Int := ((startSq.data.getD 1 '0').toNat : Int) - 48
  let direction : Int := if isW then -1 else 1
  let oneR := r + direction
  let fwd :=
    if 0 ≤ oneR ∧ oneR < 8 ∧ cell board oneR c = ' ' then
      let m1 := startSq ++ to_algebraic oneR c
      let start_rank : Int := if isW then 2 else 7
      if rank = start_rank then
        let twoR := r + 2 * direction
        if 0 ≤ twoR ∧ twoR < 8 ∧ cell board twoR c = ' ' then
          [m1, startSq ++ to_algebraic twoR c]
        else [m1]
      else [m1]
    else []
  let atks := [(direction, (-1 : Int)), (direction, 1)].filterMap fun d =>
    let row := r + d.1
    let col := c + d.2
    if inB row col then
      let target := cell board row col
      if target ≠ ' ' ∧ isW ≠ target.isUpper then
        some (startSq ++ to_algebraic row col)
      else none
    else none
  let moves := fwd ++ atks
  moves.flatMap fun m => promotionPieces.map fun p => handle_promotion selfState m p

/-- `get_en_passant_moves`. -/
def get_en_passant_moves (state : GameState) (r c : Int) : List String :=
  match state.en_passant_target with
  | none => []
  | some ep =>
      let piece := cell state.board r c
      if piece.toLower ≠ 'p' then []
      else
        let isW := piece.isUpper
        match from_algebraic ep with
        | none => []
        | some epRC =>
            if ((isW ∧ r = 3) ∨ (¬isW = true ∧ r = 4)) ∧
                (c - epRC.2).natAbs = 1 then
              [to_algebraic r c ++ ep]
            else []

/-- One attack ray of `_is_square_attacked` (`for _ in range(8)`): walk until
the first occupied square and test it against the two slider characters. -/
def ray_hits (board : Board) (targets : List Char) :
    Int → Int → Int → Int → Nat → Bool
  | _, _, _, _, 0 => false
  | r, c, dr, dc, fuel + 1 =>
      let r2 := r + dr
      let c2 := c + dc
      if inB r2 c2 then
        let t := cell board r2 c2
        if t ≠ ' ' then targets.contains t
        else ray_hits board targets r2 c2 dr dc fuel
      else false

/-- `_is_square_attacked`. -/
def is_square_attacked (board : Board) (row col : Int)
    (is_attacked_by_white : Bool) : Bool :=
  let enemy_pawn := if is_attacked_by_white then 'P' else 'p'
  let enemy_knight := if is_attacked_by_white then 'N' else 'n'
  let enemy_rook := if is_attacked_by_white then 'R' else 'r'
  let enemy_bishop := if is_attacked_by_white then 'B' else 'b'
  let enemy_queen := if is_attacked_by_white then 'Q' else 'q'
  let enemy_king := if is_attacked_by_white then 'K' else 'k'
  let direction : Int := if is_attacked_by_white then 1 else -1
  let pawnHit := [(row + direction, col - 1), (row + direction, col + 1)].any
    fun p => inB p.1 p.2 && (cell board p.1 p.2 == enemy_pawn)
  let knightHit := knightDirs.any fun d =>
    inB (row + d.1) (col + d.2) && (cell board (row + d.1) (col + d.2) == enemy_knight)
  let straightHit := straightDirs.any fun d =>
    ray_hits board [enemy_rook, enemy_queen] row col d.1 d.2 8
  let diagHit := diagonalDirs.any fun d =>
    ray_hits board [enemy_bishop, enemy_queen] row col d.1 d.2 8
  let kingHit := kingDirs.any fun d =>
    inB (row + d.1) (col + d.2) && (cell board (row + d.1) (col + d.2) == enemy_king)
  pawnHit || knightHit || straightHit || diagHit || kingHit

/-- Row-major square enumeration of the source's `for r in range(8): for c in
range(8)` double loop. -/
def allCoords : List (Int × Int) :=
  (List.range 8).flatMap fun r => (List.range 8).map fun c => ((r : Int), (c : Int))

/-- `_is_king_in_check`: first king found in row-major order (`False` when
absent). -/
def is_king_in_check (board : Board) (is_white_king : Bool) : Bool :=
  let king_char := if is_white_king then 'K' else 'k'
  match allCoords.find? (fun p => cell board p.1 p.2 == king_char) with
  | none => false
  | some kp => is_square_attacked board kp.1 kp.2 (!is_white_king)

/-- `get_casteling_moves` (sic). -/
def get_casteling_moves (state : GameState) : List String :=
  let board := state.board
  if state.turn = "w" then
    (if str_contains state.castling_rights 'K' ∧ cell board 7 5 = ' ' ∧
        cell board 7 6 = ' ' ∧ is_king_in_check board true = false ∧
        is_square_attacked board 7 5 false = false ∧
        is_square_attacked board 7 6 false = false then
      ["e1g1"] else []) ++
    (if str_contains state.castling_rights 'Q' ∧ cell board 7 3 = ' ' ∧
        cell board 7 2 = ' ' ∧ cell board 7 1 = ' ' ∧
        is_king_in_check board true = false ∧
        is_square_attacked board 7 3 false = false ∧
        is_square_attacked board 7 2 false = false then
      ["e1c1"] else [])
  else
    (if str_contains state.castling_rights 'k' ∧ cell board 0 5 = ' ' ∧
        cell board 0 6 = ' ' ∧ is_king_in_check board false = false ∧
        is_square_attacked board 0 5 true = false ∧
        is_square_attacked board 0 6 true = false then
      ["e8g8"] else []) ++
    (if str_contains state.castling_rights 'q' ∧ cell board 0 3 = ' ' ∧
        cell board 0 2 = ' ' ∧ cell board 0 1 = ' ' ∧
        is_king_in_check board false = false ∧
        is_square_attacked board 0 3 true = false ∧
        is_square_attacked board 0 2 true = false then
      ["e8c8"] else [])

/-- `_get_next_board_state`. -/
def get_next_board_state (board : Board) (mv : String) : Board :=
  let sp := from_algebraic! ⟨mv.data.take 2⟩
  let ep := from_algebraic! ⟨mv.data.drop 2⟩
  let piece := cell board sp.1 sp.2
  let b1 := setCell board sp.1 sp.2 ' '
  let b2 := setCell b1 ep.1 ep.2 piece
  if piece.toLower = 'p' then
    if mv.data.length = 5 then
      let pp := mv.data.getD 4 ' '
      setCell b2 ep.1 ep.2 (if piece.isUpper then pp.toUpper else pp.toLower)
    else if sp.2 ≠ ep.2 ∧ cell board ep.1 ep.2 = ' ' then
      setCell b2 sp.1 ep.2 ' '
    else b2
  else if piece.toLower = 'k' then
    if (sp.2 - ep.2).natAbs = 2 then
      let rookStartCol : Int := if ep.2 > sp.2 then 7 else 0
      let rookEndCol : Int := if ep.2 > sp.2 then 5 else 3
      let rook := cell b2 sp.1 rookStartCol
      setCell (setCell b2 sp.1 rookEndCol rook) sp.1 rookStartCol ' '
    else b2
  else b2

/-- The `move_calculators` dispatch table keyed by `piece.lower()`. -/
def move_calculators (selfState : GameState) (pieceLower : Char)
    (board : Board) (r c : Int) : List String :=
  if pieceLower = 'r' then get_rook_moves board r c
  else if pieceLower = 'n' then get_knight_moves board r c
  else if pieceLower = 'b' then get_bishop_moves board r c
  else if pieceLower = 'q' then get_queen_moves board r c
  else if pieceLower = 'k' then get_king_moves board r c
  else if pieceLower = 'p' then get_pawn_moves selfState board r c
  else []

/-- `get_all_legal_moves(state)` as a method of an engine whose
`self.current_state` is `selfState` (the promotion expansion inside
`get_pawn_moves` reads it). -/
def get_all_legal_moves (selfState state : GameState) : List String :=
  let is_white_turn : Bool := state.turn == "w"
  let pseudo :=
    (allCoords.flatMap fun p =>
      let piece := cell state.board p.1 p.2
      if piece = ' ' then []
      else if is_white_turn = piece.isUpper then
        move_calculators selfState piece.toLower state.board p.1 p.2 ++
          (if piece.toLower = 'p' then get_en_passant_moves state p.1 p.2 else [])
      else []) ++ get_casteling_moves state
  pseudo.filter fun m =>
    !is_king_in_check (get_next_board_state state.board m) is_white_turn

/-- `_create_new_state_from_move`. -/
def create_new_state_from_move (current_state : GameState) (mv : String) :
    GameState :=
  let start_pos : String := ⟨mv.data.take 2⟩
  let end_pos : String := ⟨mv.data.drop 2⟩
  let sp := from_algebraic! start_pos
  let new_board := get_next_board_state current_state.board mv
  let new_turn := if current_state.turn = "w" then "b" else "w"
  let piece := cell current_state.board sp.1 sp.2
  let cr := current_state.castling_rights
  let new_cr :=
    if piece = 'K' then replace_char (replace_char cr 'K') 'Q'
    else if piece = 'k' then replace_char (replace_char cr 'k') 'q'
    else if piece = 'R' ∧ start_pos = "h1" then replace_char cr 'K'
    else if piece = 'R' ∧ start_pos = "a1" then replace_char cr 'Q'
    else if piece = 'r' ∧ start_pos = "h8" then replace_char cr 'k'
    else if piece = 'r' ∧ start_pos = "a8" then replace_char cr 'q'
    else cr
  let ep := from_algebraic! end_pos
  let new_ep : Option String :=
    if piece.toLower = 'p' ∧ (sp.1 - ep.1).natAbs = 2 then
      some (to_algebraic ((sp.1 + ep.1) / 2) sp.2)
    else none
  let is_capture := cell current_state.board ep.1 ep.2 ≠ ' '
  let new_half := if piece.toLower = 'p' ∨ is_capture then 0
    else current_state.halfmove_clock + 1
  let new_full := if current_state.turn = "b" then
    current_state.fullmove_number + 1 else current_state.fullmove_number
  { board := new_board
    turn := new_turn
    castling_rights := new_cr
    en_passant_target := new_ep
    halfmove_clock := new_half
    fullmove_number := new_full }

/-- The engine's mutable session: `self.current_state` and `self.history`. -/
structure Session where
  current_state : GameState
  history : List GameState
deriving DecidableEq

/-- `__init__`. -/
def initial_session : Session :=
  ⟨initial_state, [initial_state]⟩

/-- `make_move`: the raise happens before any mutation, so the error branch
produces no new session (the caller's session is unchanged). -/
def make_move (s : Session) (mv : String) : Except String Session :=
  let legal := get_all_legal_moves s.current_state s.current_state
  if mv ∈ legal then
    let new_state := create_new_state_from_move s.current_state mv
    .ok ⟨new_state, s.history ++ [new_state]⟩
  else
    .error s!"Move {mv} is not legal."

/-- `is_checkmate` (an engine method: `selfState` is `self.current_state`). -/
def is_checkmate (selfState state : GameState) : Bool :=
  let is_white : Bool := state.turn == "w"
  if !is_king_in_check state.board is_white then false
  else (get_all_legal_moves selfState state).length == 0

/-- `get_all_legal_moves` as invoked on an engine instance: the instance's own
`current_state` is what `handle_promotion` consults. -/
def engine_get_all_legal_moves (e : Session) (state : GameState) : List String :=
  get_all_legal_moves e.current_state state

/-- The local `moves` list of `get_pawn_moves` before the promotion-expansion
loop: forward steps then diagonal captures. -/
def pawn_base_moves (board : Board) (r c : Int) : List String :=
  let startSq := to_algebraic r c
  let pawn := cell board r c
  let isW := pawn.isUpper
  let rank : Int := ((startSq.data.getD 1 '0').toNat : Int) - 48
  let direction : Int := if isW then -1 else 1
  let oneR := r + direction
  let fwd :=
    if 0 ≤ oneR ∧ oneR < 8 ∧ cell board oneR c = ' ' then
      let m1 := startSq ++ to_algebraic oneR c
      let start_rank : Int := if isW then 2 else 7
      if rank = start_rank then
        let twoR := r + 2 * direction
        if 0 ≤ twoR ∧ twoR < 8 ∧ cell board twoR c = ' ' then
          [m1, startSq ++ to_algebraic twoR c]
        else [m1]
      else [m1]
    else []
  let atks := [(direction, (-1 : Int)), (direction, 1)].filterMap fun d =>
    let row := r + d.1
    let col := c + d.2
    if inB row col then
      let target := cell board row col
      if target ≠ ' ' ∧ isW ≠ target.isUpper then
        some (startSq ++ to_algebraic row col)
      else none
    else none
  fwd ++ atks

/-- The condition under which `handle_promotion` appends a promotion letter:
the engine's CURRENT board holds a pawn at the move's source square, moving to
row 0 (white pawn) or row 7 (black pawn). -/
abbrev promotes (selfState : GameState) (mv : String) : Prop :=
  let sp := from_algebraic! ⟨mv.data.take 2⟩
  let ep := from_algebraic! ⟨(mv.data.drop 2).take 2⟩
  let piece := cell selfState.board sp.1 sp.2
  piece.toLower = 'p' ∧
    ((piece.isUpper ∧ ep.1 = 0) ∨ (piece.isLower ∧ ep.1 = 7))

/-- A position used to separate the argument of `get_all_legal_moves` from the
engine's own `current_state`: lone white pawn on e7, white to move. -/
def lonePawnState : GameState :=
  { board :=
      [[' ', ' ', ' ', ' ', ' ', ' ', ' ', ' '],
       [' ', ' ', ' ', ' ', 'P', ' ', ' ', ' '],
       [' ', ' ', ' ', ' ', ' ', ' ', ' ', ' '],
       [' ', ' ', ' ', ' ', ' ', ' ', ' ', ' '],
       [' ', ' ', ' ', ' ', ' ', ' ', ' ', ' '],
       [' ', ' ', ' ', ' ', ' ', ' ', ' ', ' '],
       [' ', ' ', ' ', ' ', ' ', ' ', ' ', ' '],
       [' ', ' ', ' ', ' ', ' ', ' ', ' ', ' ']]
    turn := "w"
    castling_rights := ""
    en_passant_target := none
    halfmove_clock := 0
    fullmove_number := 1 }

/-- Session (engine instance) whose own state is `lonePawnState`. -/
def lonePawnSession : Session := ⟨lonePawnState, [lonePawnState]⟩

/-- An all-empty board: no king on e1, no rook on h1, nothing anywhere. -/
def emptyBoard : Board := List.replicate 8 (List.replicate 8 ' ')

/-! ### Vocabulary for the invariant claims -/

/-- The file character of `_to_algebraic`. -/
def fileChar (c : Int) : Char := Char.ofNat (97 + c).toNat

/-- The rank character of `_to_algebraic`. -/
def rankChar (r : Int) : Char := Char.ofNat (48 + (8 - r)).toNat

/-- An in-range square. -/
def Sq (r c : Int) : Prop := 0 ≤ r ∧ r < 8 ∧ 0 ≤ c ∧ c < 8

instance (r c : Int) : Decidable (Sq r c) := by unfold Sq; infer_instance

/-- The board is an 8×8 grid. -/
def Boardish (b : Board) : Prop :=
  b.length = 8 ∧ ∀ row ∈ b, row.length = 8

/-- The square-encoding alphabet of the board serialization contract. -/
def alphabet : List Char :=
  [' ', 'p', 'r', 'n', 'b', 'q', 'k', 'P', 'R', 'N', 'B', 'Q', 'K']

/-- Every square of the board lies in the encoding alphabet. -/
def BoardAlpha (b : Board) : Prop :=
  ∀ row ∈ b, ∀ ch ∈ row, ch ∈ alphabet

/-- Number of squares of the board holding the character `ch`. -/
def countPiece (b : Board) (ch : Char) : Nat :=
  (b.map fun row => row.count ch).sum

/-- The en-passant target field, when present, is a well-formed square label
(the only value the state-transition engine ever stores there). -/
def EpWF (s : GameState) : Prop :=
  ∀ t, s.en_passant_target = some t → ∃ r c, Sq r c ∧ t = to_algebraic r c

/-- Exactly one king of each color. -/
def kingsOK (b : Board) : Prop :=
  countPiece b 'K' = 1 ∧ countPiece b 'k' = 1

/-- The side NOT to move is not in check (maintained by the legality filter:
the mover may never leave their own king attacked). -/
def oppSafe (s : GameState) : Prop :=
  is_king_in_check s.board (!(s.turn == "w")) = false

/-- Consistency of the en-passant target with the board: it marks the square
skipped by the immediately preceding double pawn advance, so the skipped
square is empty and the advanced enemy pawn stands beyond it. -/
def epOK (s : GameState) : Prop :=
  ∀ t, s.en_passant_target = some t →
    ∃ col : Int, 0 ≤ col ∧ col < 8 ∧
      (((s.turn == "w") = true ∧ t = to_algebraic 2 col ∧
          (cell s.board 3 col).toLower = 'p' ∧ cell s.board 2 col = ' ') ∨
       ((s.turn == "w") = false ∧ t = to_algebraic 5 col ∧
          (cell s.board 4 col).toLower = 'p' ∧ cell s.board 5 col = ' '))

/-- The combined invariant of reachable states. -/
def Inv (s : GameState) : Prop :=
  Boardish s.board ∧ BoardAlpha s.board ∧ kingsOK s.board ∧ oppSafe s ∧ epOK s

/-- The pseudo-legal move list of `get_all_legal_moves`, before the
king-safety filter. -/
def pseudo_moves (selfState state : GameState) : List String :=
  let is_white_turn : Bool := state.turn == "w"
  (allCoords.flatMap fun p =>
    let piece := cell state.board p.1 p.2
    if piece = ' ' then []
    else if is_white_turn = piece.isUpper then
      move_calculators selfState piece.toLower state.board p.1 p.2 ++
        (if piece.toLower = 'p' then get_en_passant_moves state p.1 p.2 else [])
    else []) ++ get_casteling_moves state

/-- The enemy king character from the mover's perspective. -/
def enemyKing (W : Bool) : Char := if W then 'k' else 'K'

/-- Structural well-formedness of a generated move string: four characters
encoding two in-range squares, plus an optional promotion letter (only ever
attached to a move landing on row 0 or row 7), with distinct squares. -/
def Shape (m : String) (r1 c1 r2 c2 : Int) (suffix : List Char) : Prop :=
  Sq r1 c1 ∧ Sq r2 c2 ∧
  m.data = [fileChar c1, rankChar r1, fileChar c2, rankChar r2] ++ suffix ∧
  (suffix = [] ∨ ∃ p, p ∈ promotionPieces ∧ suffix = [p]) ∧
  (suffix ≠ [] → r2 = 0 ∨ r2 = 7) ∧
  ¬(r1 = r2 ∧ c1 = c2)

/-- Semantic facts about a pseudo-legal move of the position `S` with mover
color `W`, read off the generator that produced it:
destination discipline (empty or enemy), attack-soundness at an enemy king
destination, the diagonal-pawn-onto-empty analysis (en passant or a
same-row anomaly), the castling-execution preconditions, and the
double-pawn-advance analysis. -/
def Facts (S : GameState) (W : Bool) (r1 c1 r2 c2 : Int)
    (suffix : List Char) : Prop :=
  (cell S.board r2 c2 = ' ' ∨ W ≠ (cell S.board r2 c2).isUpper) ∧
  (cell S.board r2 c2 = enemyKing W →
    is_square_attacked S.board r2 c2 W = true) ∧
  ((cell S.board r1 c1).toLower = 'p' → suffix = [] → c1 ≠ c2 →
    cell S.board r2 c2 = ' ' →
    r1 = r2 ∨ (cell S.board r1 c2).toLower = 'p') ∧
  ((cell S.board r1 c1).toLower = 'k' → (c1 - c2).natAbs = 2 →
    r1 = r2 ∧ c1 = 4 ∧ (c2 = 6 ∨ c2 = 2) ∧
    cell S.board r1 ((c1 + c2) / 2) = ' ') ∧
  ((cell S.board r1 c1).toLower = 'p' → (r1 - r2).natAbs = 2 →
    c2 = c1 ∧ ((W = true ∧ r1 = 6 ∧ r2 = 4) ∨ (W = false ∧ r1 = 1 ∧ r2 = 3)) ∧
    cell S.board ((r1 + r2) / 2) c1 = ' ' ∧ cell S.board r2 c1 = ' ')

/-- Everything the master lemma needs from one dispatch branch at square
`(r, c)`. -/
def BranchOut (S : GameState) (W : Bool) (r c : Int) (m : String) : Prop :=
  ∃ r2 c2 suffix, Shape m r c r2 c2 suffix ∧
    (BoardAlpha S.board → epOK S → Facts S W r c r2 c2 suffix)

/-- The positions reachable from the initial position by applying moves the
engine itself deems legal (the session API keeps `self.current_state` equal
to the position being queried, hence the repeated argument). -/
inductive Reachable : GameState → Prop
  | init : Reachable initial_state
  | step {s : GameState} {m : String} : Reachable s →
      m ∈ get_all_legal_moves s s → Reachable (create_new_state_from_move s m)

/-- State with an empty board, white to move, kingside castling right set. -/
def emptyBoardCastleState : GameState :=
  { board := emptyBoard
    turn := "w"
    castling_rights := "K"
    en_passant_target := none
    halfmove_clock := 0
    fullmove_number := 1 }

end ChessEngine

namespace ChessEngine

/-! ## Claims -/

/-- C8: for every row `r` and column `c` with `0 ≤ r < 8` and `0 ≤ c < 8`,
decoding the label produced by encoding returns exactly `(r, c)`:
`_from_algebraic` and `_to_algebraic` are mutual inverses on this domain. -/
theorem C8_roundtrip (r c : Int) (hr0 : 0 ≤ r) (hr8 : r < 8)
    (hc0 : 0 ≤ c) (hc8 : c < 8) :
    from_algebraic (to_algebraic r c) = some (r, c) := by
  interval_cases r <;> interval_cases c <;> decide

/-- Witness for C8 at `(r, c) = (0, 0)`. -/
theorem C8_roundtrip_witness :
    from_algebraic (to_algebraic 0 0) = some (0, 0) :=
  C8_roundtrip 0 0 (by decide) (by decide) (by decide) (by decide)

/-- C4 counterexample: the label `"a9"` is not well-formed (its rank character
`'9'` is outside `'1'..'8'`), yet `_from_algebraic` does not fail — it returns
the out-of-range pair `(-1, 0)`. -/
theorem C4_counterexample :
    ¬('1' ≤ '9' ∧ '9' ≤ '8') ∧ from_algebraic "a9" ≠ none ∧
      from_algebraic "a9" = some (-1, 0) := by decide

/-- C4 (amended): every well-formed two-character label (file `'a'..'h'`,
rank `'1'..'8'`) decodes without error to the matching in-range pair; but
`_from_algebraic` performs no range validation, failing only on labels
shorter than two characters or whose rank character is not a digit. -/
theorem C4_amended :
    ∀ i : Nat, i < 8 → ∀ j : Nat, j < 8 →
      from_algebraic ⟨[Char.ofNat (97 + i), Char.ofNat (49 + j)]⟩ =
        some ((7 : Int) - (j : Int), (i : Int)) := by decide

/-- Witness for C4 (amended) at the label `"a1"`. -/
theorem C4_amended_witness :
    from_algebraic ⟨[Char.ofNat 97, Char.ofNat 49]⟩ = some ((7 : Int), (0 : Int)) :=
  C4_amended 0 (by decide) 0 (by decide)

/-- C2 counterexample: on the initial board, the non-promoting pawn move
`"e2e3"` is emitted FOUR times by `get_pawn_moves` (once per promotion piece),
not exactly once as claimed. -/
theorem C2_counterexample :
    (get_pawn_moves initial_state initial_board 6 4).count "e2e3" = 4 ∧
      (get_pawn_moves initial_state initial_board 6 4).count "e2e3" ≠ 1 := by
  decide

/-- C2 (amended): `get_pawn_moves` expands each generated move that
`handle_promotion` classifies as promoting — judged against the ENGINE's
current board, not the board argument — into exactly the four promotion
variants `r`, `n`, `b`, `q`; every other generated move is emitted exactly
four times (once per promotion piece), unchanged, not exactly once. -/
theorem C2_amended (selfState : GameState) (board : Board) (r c : Int) :
    get_pawn_moves selfState board r c =
      (pawn_base_moves board r c).flatMap fun m =>
        if promotes selfState m then
          [m ++ "r", m ++ "n", m ++ "b", m ++ "q"]
        else [m, m, m, m] := by
  show (pawn_base_moves board r c).flatMap
      (fun m => promotionPieces.map fun p => handle_promotion selfState m p) = _
  congr 1
  funext m
  by_cases h : promotes selfState m
  · simp only [promotionPieces, List.map_cons, List.map_nil, if_pos h,
      handle_promotion, if_pos h]
    rfl
  · simp only [promotionPieces, List.map_cons, List.map_nil, if_neg h,
      handle_promotion, if_neg h]

/-- C1 counterexample: from the initial position the engine returns 68
entries, not 20 — the promotion-expansion loop emits each of the 16 pawn
moves four times (64 entries) on top of the 4 knight moves. -/
theorem C1_counterexample :
    (get_all_legal_moves initial_state initial_state).length = 68 ∧
      (get_all_legal_moves initial_state initial_state).length ≠ 20 := by
  decide

/-- C1 (amended): from the initial position `get_all_legal_moves` returns 68
entries — each of the 16 pawn moves four times, plus the 4 knight moves once
each — and exactly the expected 20 distinct moves. -/
theorem C1_amended :
    (get_all_legal_moves initial_state initial_state).length = 68 ∧
      (get_all_legal_moves initial_state initial_state).eraseDups =
        ["a2a3", "a2a4", "b2b3", "b2b4", "c2c3", "c2c4", "d2d3", "d2d4",
         "e2e3", "e2e4", "f2f3", "f2f4", "g2g3", "g2g4", "h2h3", "h2h4",
         "b1a3", "b1c3", "g1f3", "g1h3"] ∧
      (get_all_legal_moves initial_state initial_state).count "e2e3" = 4 ∧
      (get_all_legal_moves initial_state initial_state).count "g1f3" = 1 := by
  decide

/-- C7: from a fresh session at the initial position, the moves `f2f3`,
`e7e5`, `g2g4`, `d8h4` all succeed in order, and afterwards `is_checkmate`
on the current position returns `true`. -/
theorem C7_fools_mate :
    (((((make_move initial_session "f2f3").bind fun s =>
        make_move s "e7e5").bind fun s =>
        make_move s "g2g4").bind fun s =>
        make_move s "d8h4").map fun s =>
        is_checkmate s.current_state s.current_state).toOption = some true := by
  decide

/-- C5: a well-formed move string not in the legal-move list of the session's
current position makes `make_move` fail with the illegal-move error; no new
session is produced, so the caller's current position and history are exactly
unchanged (the raise precedes every mutation in the source). -/
theorem C5_illegal_move_rejected (s : Session) (mv : String)
    (h : mv ∉ get_all_legal_moves s.current_state s.current_state) :
    make_move s mv = Except.error s!"Move {mv} is not legal." := by
  unfold make_move
  simp [h]

/-- Witness for C5: `e2e5` is not legal from the initial position and is
rejected with the error, producing no new session. -/
theorem C5_illegal_move_rejected_witness :
    make_move initial_session "e2e5" = Except.error "Move e2e5 is not legal." :=
  C5_illegal_move_rejected initial_session "e2e5" (by decide)

/-- C9: white kingside castling eligibility never consults the placement of
the king or rook: whenever white is to move, `'K'` is among the castling
rights, f1 and g1 are empty, the white king is not in check (per the code's
own check predicate, which is vacuously false when no king exists), and f1
and g1 are not attacked by black, `get_casteling_moves` includes `"e1g1"` —
whatever stands (or does not stand) on e1 and h1. -/
theorem C9_castling_rights_only (state : GameState)
    (hturn : state.turn = "w")
    (hK : str_contains state.castling_rights 'K' = true)
    (hf1 : cell state.board 7 5 = ' ')
    (hg1 : cell state.board 7 6 = ' ')
    (hchk : is_king_in_check state.board true = false)
    (ha5 : is_square_attacked state.board 7 5 false = false)
    (ha6 : is_square_attacked state.board 7 6 false = false) :
    "e1g1" ∈ get_casteling_moves state := by
  unfold get_casteling_moves
  simp [hturn, hK, hf1, hg1, hchk, ha5, ha6]

/-- Witness for C9: on a COMPLETELY EMPTY board (no white king on e1, no rook
on h1) with rights `"K"`, the engine still offers `"e1g1"`. -/
theorem C9_castling_rights_only_witness :
    "e1g1" ∈ get_casteling_moves emptyBoardCastleState :=
  C9_castling_rights_only emptyBoardCastleState rfl (by decide) (by decide)
    (by decide) (by decide) (by decide) (by decide)

/-- C3 counterexample: two engine instances with different `current_state`
(and histories), handed the SAME state `lonePawnState`, return different
sequences: the promotion expansion inside `get_pawn_moves` consults the
engine's own `current_state.board`, so `get_all_legal_moves` is not a pure
function of its argument. -/
theorem C3_counterexample :
    engine_get_all_legal_moves lonePawnSession lonePawnState ≠
        engine_get_all_legal_moves initial_session lonePawnState ∧
      engine_get_all_legal_moves lonePawnSession lonePawnState =
        ["e7e8r", "e7e8n", "e7e8b", "e7e8q"] ∧
      engine_get_all_legal_moves initial_session lonePawnState =
        ["e7e8", "e7e8", "e7e8", "e7e8"] := by decide

/-- C3 (amended): `get_all_legal_moves` depends on its `GameState` argument
AND on the engine's own `current_state` (read by `handle_promotion` when
expanding pawn moves), but on nothing else: two engine instances with equal
`current_state` and arbitrarily different histories return identical
sequences on every argument. -/
theorem C3_amended (e1 e2 : Session) (S : GameState)
    (h : e1.current_state = e2.current_state) :
    engine_get_all_legal_moves e1 S = engine_get_all_legal_moves e2 S := by
  unfold engine_get_all_legal_moves
  rw [h]

/-- Witness for C3 (amended): equal current states, different histories. -/
theorem C3_amended_witness :
    engine_get_all_legal_moves ⟨initial_state, []⟩ initial_state =
      engine_get_all_legal_moves ⟨initial_state, [initial_state, initial_state]⟩
        initial_state :=
  C3_amended ⟨initial_state, []⟩ ⟨initial_state, [initial_state, initial_state]⟩
    initial_state rfl

/-! ### Codec lemmas -/

theorem to_algebraic_eq (r c : Int) :
    to_algebraic r c = ⟨[fileChar c, rankChar r]⟩ := rfl

theorem from_algebraic_cons (f rk : Char) (rest : List Char) :
    from_algebraic ⟨f :: rk :: rest⟩ =
      if rk.isDigit then
        some ((8 : Int) - ((rk.toNat : Int) - 48), (f.toNat : Int) - 97)
      else none := rfl

/-- Decoding a generated label, with any tail after it, recovers the square. -/
theorem decode_fileRank {r c : Int} (h : Sq r c) (rest : List Char) :
    from_algebraic ⟨fileChar c :: rankChar r :: rest⟩ = some (r, c) := by
  obtain ⟨h1, h2, h3, h4⟩ := h
  rw [from_algebraic_cons]
  interval_cases r <;> interval_cases c <;> decide

theorem decode_fileRank! {r c : Int} (h : Sq r c) (rest : List Char) :
    from_algebraic! ⟨fileChar c :: rankChar r :: rest⟩ = (r, c) := by
  rw [from_algebraic!, decode_fileRank h rest]
  rfl

/-- In-range labels are uniquely decodable, so encoding is injective. -/
theorem to_algebraic_inj {r c r' c' : Int} (h : Sq r c) (h' : Sq r' c')
    (he : to_algebraic r c = to_algebraic r' c') : r = r' ∧ c = c' := by
  have e1 := decode_fileRank h ([] : List Char)
  have e2 := decode_fileRank h' ([] : List Char)
  rw [← to_algebraic_eq] at e1 e2
  rw [he, e2] at e1
  injection e1 with e1
  exact ⟨(Prod.mk.injEq _ _ _ _ ▸ e1).1.symm, (Prod.mk.injEq _ _ _ _ ▸ e1).2.symm⟩

theorem mem_allCoords {r c : Int} (h : Sq r c) : (r, c) ∈ allCoords := by
  obtain ⟨h1, h2, h3, h4⟩ := h
  interval_cases r <;> interval_cases c <;> decide

theorem sq_of_mem_allCoords {p : Int × Int} (h : p ∈ allCoords) : Sq p.1 p.2 := by
  have : ∀ q ∈ allCoords, Sq q.1 q.2 := by decide
  exact this p h

/-! ### Board access lemmas -/

theorem boardish_setCell {b : Board} (hB : Boardish b) {r c : Int}
    (h : Sq r c) (x : Char) : Boardish (setCell b r c x) := by
  obtain ⟨hlen, hrows⟩ := hB
  have hr : r.toNat < b.length := by obtain ⟨h1, h2, h3, h4⟩ := h; omega
  refine ⟨by simp [setCell, hlen], ?_⟩
  intro row hrow
  rcases List.mem_or_eq_of_mem_set hrow with hmem | heq
  · exact hrows row hmem
  · subst heq
    rw [List.length_set]
    have hgd : b.getD r.toNat [] = b[r.toNat] := by
      simp [List.getD_eq_getElem?_getD, List.getElem?_eq_getElem hr]
    rw [hgd]
    exact hrows _ (List.getElem_mem hr)

theorem alpha_setCell {b : Board} (hA : BoardAlpha b) {x : Char}
    (hx : x ∈ alphabet) (r c : Int) : BoardAlpha (setCell b r c x) := by
  intro row hrow
  rcases List.mem_or_eq_of_mem_set hrow with hmem | heq
  · exact hA row hmem
  · subst heq
    intro ch hch
    rcases List.mem_or_eq_of_mem_set hch with hmem2 | heq2
    · rcases hrowD : b[r.toNat]? with _ | oldRow
      · rw [List.getD_eq_getElem?_getD, hrowD] at hmem2
        simp at hmem2
      · rw [List.getD_eq_getElem?_getD, hrowD, Option.getD_some] at hmem2
        exact hA oldRow (List.getElem?_mem hrowD) ch hmem2
    · subst heq2; exact hx

theorem cell_mem_of_alpha {b : Board} (hA : BoardAlpha b) (r c : Int) :
    cell b r c ∈ alphabet := by
  unfold cell
  simp only [List.getD_eq_getElem?_getD]
  rcases hrow : b[r.toNat]? with _ | row
  · simp [alphabet]
  · simp only [Option.getD_some]
    rcases hch : row[c.toNat]? with _ | ch
    · simp [alphabet]
    · simp only [Option.getD_some]
      exact hA row (List.getElem?_mem hrow) ch (List.getElem?_mem hch)

theorem cell_setCell_self {b : Board} (hB : Boardish b) {r c : Int}
    (h : Sq r c) (x : Char) : cell (setCell b r c x) r c = x := by
  obtain ⟨hlen, hrows⟩ := hB
  have hr : r.toNat < b.length := by obtain ⟨h1, h2, h3, h4⟩ := h; omega
  have hc : c.toNat < (b[r.toNat]).length := by
    rw [hrows _ (List.getElem_mem hr)]
    obtain ⟨h1, h2, h3, h4⟩ := h; omega
  unfold cell setCell
  simp only [List.getD_eq_getElem?_getD, List.getElem?_eq_getElem hr,
    Option.getD_some]
  rw [List.getElem?_set_self hr, Option.getD_some,
    List.getElem?_set_self hc, Option.getD_some]

theorem cell_setCell_ne {b : Board} (hB : Boardish b) {r c r' c' : Int}
    (h : Sq r c) (h' : Sq r' c') (hne : ¬(r = r' ∧ c = c')) (x : Char) :
    cell (setCell b r c x) r' c' = cell b r' c' := by
  obtain ⟨hlen, hrows⟩ := hB
  have hr : r.toNat < b.length := by obtain ⟨h1, h2, h3, h4⟩ := h; omega
  by_cases hrr : r.toNat = r'.toNat
  · have hreq : r = r' := by
      obtain ⟨a1, a2, a3, a4⟩ := h; obtain ⟨b1, b2, b3, b4⟩ := h'; omega
    have hcc : c.toNat ≠ c'.toNat := by
      obtain ⟨a1, a2, a3, a4⟩ := h; obtain ⟨b1, b2, b3, b4⟩ := h'
      intro hcn; exact hne ⟨hreq, by omega⟩
    unfold cell setCell
    simp only [List.getD_eq_getElem?_getD, List.getElem?_eq_getElem hr,
      Option.getD_some]
    rw [← hrr, List.getElem?_set_self hr, Option.getD_some,
      List.getElem?_set_ne hcc, List.getElem?_eq_getElem hr]
    rfl
  · unfold cell setCell
    simp only [List.getD_eq_getElem?_getD]
    rw [List.getElem?_set_ne hrr]

theorem count_set_add (ch x : Char) :
    ∀ (l : List Char) (n : Nat) (hn : n < l.length),
      (l.set n x).count ch + (if l.get ⟨n, hn⟩ = ch then 1 else 0) =
        l.count ch + (if x = ch then 1 else 0) := by
  intro l
  induction l with
  | nil => intro n h; simp at h
  | cons a t ih =>
      intro n h
      cases n with
      | zero =>
          simp only [List.get_eq_getElem, List.set_cons_zero,
            List.getElem_cons_zero, List.count_cons, beq_iff_eq]
          by_cases hx : x = ch <;> by_cases ha : a = ch <;>
            simp [hx, ha] <;> omega
      | succ n =>
          have hlt : n < t.length := by simpa using h
          have := ih n hlt
          simp only [List.get_eq_getElem] at this
          simp only [List.get_eq_getElem, List.set_cons_succ,
            List.getElem_cons_succ, List.count_cons, beq_iff_eq]
          by_cases ha : a = ch <;> simp [ha] <;> omega

theorem sum_map_set_add (f : List Char → Nat) (v : List Char) :
    ∀ (b : List (List Char)) (n : Nat) (hn : n < b.length),
      ((b.set n v).map f).sum + f (b.get ⟨n, hn⟩) = (b.map f).sum + f v := by
  intro b
  induction b with
  | nil => intro n h; simp at h
  | cons a t ih =>
      intro n h
      cases n with
      | zero => simp [Nat.add_comm, Nat.add_left_comm]
      | succ n =>
          have hlt : n < t.length := by simpa using h
          have := ih n hlt
          simp only [List.get_eq_getElem] at this
          simp only [List.get_eq_getElem, List.set_cons_succ,
            List.getElem_cons_succ, List.map_cons, List.sum_cons]
          omega

theorem countPiece_setCell {b : Board} (hB : Boardish b) {r c : Int}
    (h : Sq r c) (x ch : Char) :
    countPiece (setCell b r c x) ch + (if cell b r c = ch then 1 else 0) =
      countPiece b ch + (if x = ch then 1 else 0) := by
  obtain ⟨hlen, hrows⟩ := hB
  have hr : r.toNat < b.length := by obtain ⟨h1, h2, h3, h4⟩ := h; omega
  have hc : c.toNat < (b[r.toNat]).length := by
    rw [hrows _ (List.getElem_mem hr)]
    obtain ⟨h1, h2, h3, h4⟩ := h; omega
  have hcell : cell b r c = (b[r.toNat])[c.toNat] := by
    unfold cell
    simp only [List.getD_eq_getElem?_getD, List.getElem?_eq_getElem hr,
      Option.getD_some, List.getElem?_eq_getElem hc]
  have hrow := count_set_add ch x (b[r.toNat]) c.toNat hc
  simp only [List.get_eq_getElem] at hrow
  have hbrd := sum_map_set_add (fun row => row.count ch)
    ((b[r.toNat]).set c.toNat x) b r.toNat hr
  simp only [List.get_eq_getElem] at hbrd
  unfold countPiece setCell
  simp only [List.getD_eq_getElem?_getD, List.getElem?_eq_getElem hr,
    Option.getD_some]
  rw [hcell]
  omega

/-! ### Move characterization, attack completeness and invariants -/

theorem inB_iff {r c : Int} : inB r c = true ↔ Sq r c := by
  simp [inB, Sq, Bool.and_eq_true, decide_eq_true_eq, and_assoc]

theorem slide_spec {b : Board} {isW : Bool} {s : String} {dr dc : Int} :
    ∀ (fuel : Nat) (r c : Int) (m : String), m ∈ slide b isW s r c dr dc fuel →
    ∃ k : Nat, 1 ≤ k ∧ k ≤ fuel ∧
      (∀ j : Nat, 1 ≤ j → j < k →
        inB (r + j * dr) (c + j * dc) = true ∧
        cell b (r + j * dr) (c + j * dc) = ' ') ∧
      inB (r + k * dr) (c + k * dc) = true ∧
      m = s ++ to_algebraic (r + k * dr) (c + k * dc) ∧
      (cell b (r + k * dr) (c + k * dc) = ' ' ∨
        isW ≠ (cell b (r + k * dr) (c + k * dc)).isUpper) := by
  intro fuel
  induction fuel with
  | zero => intro r c m hm; simp [slide] at hm
  | succ n ih =>
      intro r c m hm
      simp only [slide] at hm
      by_cases hin : inB (r + dr) (c + dc)
      · rw [if_pos hin] at hm
        by_cases hsp : cell b (r + dr) (c + dc) = ' '
        · rw [if_pos hsp] at hm
          rcases List.mem_cons.mp hm with hm | hm
          · refine ⟨1, le_refl 1, by omega, ?_, ?_, ?_, ?_⟩
            · intro j hj1 hj2; omega
            · simpa using hin
            · simpa using hm
            · left; simpa using hsp
          · obtain ⟨k, hk1, hk2, hmid, hend, hstr, hdst⟩ := ih (r + dr) (c + dc) m hm
            have eshift : ∀ j : Nat, (r + dr) + (j : Int) * dr = r + ((j + 1 : Nat) : Int) * dr := by
              intro j; push_cast; ring
            have eshiftc : ∀ j : Nat, (c + dc) + (j : Int) * dc = c + ((j + 1 : Nat) : Int) * dc := by
              intro j; push_cast; ring
            refine ⟨k + 1, by omega, by omega, ?_, ?_, ?_, ?_⟩
            · intro j hj1 hj2
              rcases Nat.eq_or_lt_of_le hj1 with hj | hj
              · constructor
                · rw [← hj]; simpa using hin
                · rw [← hj]; simpa using hsp
              · have hj' : 1 ≤ j - 1 := by omega
                have hj'' : j - 1 < k := by omega
                have := hmid (j - 1) hj' hj''
                have ej : ((j - 1 + 1 : Nat) : Int) = (j : Int) := by omega
                rw [eshift (j-1), eshiftc (j-1), ej] at this
                exact this
            · rw [← eshift k, ← eshiftc k] at *; exact hend
            · rw [← eshift k, ← eshiftc k] at *; exact hstr
            · rw [← eshift k, ← eshiftc k] at *; exact hdst
        · rw [if_neg hsp] at hm
          by_cases hcol : isW ≠ (cell b (r + dr) (c + dc)).isUpper
          · rw [if_pos hcol] at hm
            rcases List.mem_singleton.mp hm with hm
            refine ⟨1, le_refl 1, by omega, ?_, ?_, ?_, ?_⟩
            · intro j hj1 hj2; omega
            · simpa using hin
            · simpa using hm
            · right; simpa using hcol
          · rw [if_neg hcol] at hm; simp at hm
      · rw [if_neg hin] at hm; simp at hm

theorem ray_hits_path {b : Board} {targets : List Char} {dr dc : Int} :
    ∀ (fuel k : Nat) (r c : Int), 1 ≤ k → k ≤ fuel →
      (∀ j : Nat, 1 ≤ j → j < k →
        inB (r + j * dr) (c + j * dc) = true ∧
        cell b (r + j * dr) (c + j * dc) = ' ') →
      inB (r + k * dr) (c + k * dc) = true →
      cell b (r + k * dr) (c + k * dc) ≠ ' ' →
      cell b (r + k * dr) (c + k * dc) ∈ targets →
      ray_hits b targets r c dr dc fuel = true := by
  intro fuel
  induction fuel with
  | zero => intro k r c h1 h2; omega
  | succ n ih =>
      intro k r c h1 h2 hmid hend hne hmem
      simp only [ray_hits]
      rcases Nat.eq_or_lt_of_le h1 with hk | hk
      · have e1 : r + ((1 : Nat) : Int) * dr = r + dr := by push_cast; ring
        have e1c : c + ((1 : Nat) : Int) * dc = c + dc := by push_cast; ring
        rw [← hk, e1, e1c] at hend hne hmem
        rw [if_pos hend, if_pos hne]
        simp [List.contains_eq_any_beq, List.any_eq_true]
        exact hmem
      · have hstep := hmid 1 (le_refl 1) hk
        have e1 : r + ((1 : Nat) : Int) * dr = r + dr := by push_cast; ring
        have e1c : c + ((1 : Nat) : Int) * dc = c + dc := by push_cast; ring
        rw [e1, e1c] at hstep
        rw [if_pos hstep.1]
        have : ¬cell b (r + dr) (c + dc) ≠ ' ' := by simp [hstep.2]
        rw [if_neg this]
        have eshift : ∀ j : Nat, (r + dr) + (j : Int) * dr = r + ((j + 1 : Nat) : Int) * dr := by
          intro j; push_cast; ring
        have eshiftc : ∀ j : Nat, (c + dc) + (j : Int) * dc = c + ((j + 1 : Nat) : Int) * dc := by
          intro j; push_cast; ring
        refine ih (k - 1) (r + dr) (c + dc) (by omega) (by omega) ?_ ?_ ?_ ?_
        · intro j hj1 hj2
          rw [eshift j, eshiftc j]
          have ej : ((j + 1 : Nat) : Int) = ((j + 1 : Nat) : Int) := rfl
          exact hmid (j + 1) (by omega) (by omega)
        · rw [eshift (k-1), eshiftc (k-1)]
          have ek : ((k - 1 + 1 : Nat) : Int) = ((k : Nat) : Int) := by omega
          rw [ek]; exact hend
        · rw [eshift (k-1), eshiftc (k-1)]
          have ek : ((k - 1 + 1 : Nat) : Int) = ((k : Nat) : Int) := by omega
          rw [ek]; exact hne
        · rw [eshift (k-1), eshiftc (k-1)]
          have ek : ((k - 1 + 1 : Nat) : Int) = ((k : Nat) : Int) := by omega
          rw [ek]; exact hmem

theorem attacked_of_straight {board : Board} {R C : Int} {W : Bool} {d : Int × Int}
    (hd : d ∈ straightDirs)
    (h : ray_hits board [if W then 'R' else 'r', if W then 'Q' else 'q']
      R C d.1 d.2 8 = true) :
    is_square_attacked board R C W = true := by
  unfold is_square_attacked
  simp only [Bool.or_eq_true, List.any_eq_true]
  exact Or.inl (Or.inl (Or.inr ⟨d, hd, h⟩))

theorem attacked_of_diag {board : Board} {R C : Int} {W : Bool} {d : Int × Int}
    (hd : d ∈ diagonalDirs)
    (h : ray_hits board [if W then 'B' else 'b', if W then 'Q' else 'q']
      R C d.1 d.2 8 = true) :
    is_square_attacked board R C W = true := by
  unfold is_square_attacked
  simp only [Bool.or_eq_true, List.any_eq_true]
  exact Or.inl (Or.inr ⟨d, hd, h⟩)

theorem attacked_of_knight {board : Board} {R C : Int} {W : Bool} {d : Int × Int}
    (hd : d ∈ knightDirs) (hin : inB (R + d.1) (C + d.2) = true)
    (hc : cell board (R + d.1) (C + d.2) = (if W then 'N' else 'n')) :
    is_square_attacked board R C W = true := by
  unfold is_square_attacked
  simp only [Bool.or_eq_true, List.any_eq_true]
  exact Or.inl (Or.inl (Or.inl (Or.inr ⟨d, hd,
    by rw [Bool.and_eq_true]; exact ⟨hin, by simp [hc]⟩⟩)))

theorem attacked_of_king {board : Board} {R C : Int} {W : Bool} {d : Int × Int}
    (hd : d ∈ kingDirs) (hin : inB (R + d.1) (C + d.2) = true)
    (hc : cell board (R + d.1) (C + d.2) = (if W then 'K' else 'k')) :
    is_square_attacked board R C W = true := by
  unfold is_square_attacked
  simp only [Bool.or_eq_true, List.any_eq_true]
  exact Or.inr ⟨d, hd, by rw [Bool.and_eq_true]; exact ⟨hin, by simp [hc]⟩⟩

theorem attacked_of_pawn {board : Board} {R C : Int} {W : Bool} {p : Int × Int}
    (hp : p ∈ [(R + (if W then (1:Int) else -1), C - 1),
                (R + (if W then (1:Int) else -1), C + 1)])
    (hin : inB p.1 p.2 = true)
    (hc : cell board p.1 p.2 = (if W then 'P' else 'p')) :
    is_square_attacked board R C W = true := by
  unfold is_square_attacked
  simp only [Bool.or_eq_true, List.any_eq_true]
  exact Or.inl (Or.inl (Or.inl (Or.inl ⟨p, hp,
    by rw [Bool.and_eq_true]; exact ⟨hin, by simp [hc]⟩⟩)))

theorem neg_mem_straightDirs {d : Int × Int} (hd : d ∈ straightDirs) :
    ((-d.1, -d.2) : Int × Int) ∈ straightDirs := by
  fin_cases hd <;> decide

theorem neg_mem_diagonalDirs {d : Int × Int} (hd : d ∈ diagonalDirs) :
    ((-d.1, -d.2) : Int × Int) ∈ diagonalDirs := by
  fin_cases hd <;> decide

theorem neg_mem_knightDirs {d : Int × Int} (hd : d ∈ knightDirs) :
    ((-d.1, -d.2) : Int × Int) ∈ knightDirs := by
  fin_cases hd <;> decide

theorem neg_mem_kingDirs {d : Int × Int} (hd : d ∈ kingDirs) :
    ((-d.1, -d.2) : Int × Int) ∈ kingDirs := by
  fin_cases hd <;> decide

/-- What one sliding ray contributes: an in-range distinct destination, empty
or enemy-occupied, and a clear reverse ray from the destination back to the
slider's own square. -/
theorem slide_core {b : Board} {isW : Bool} {r c : Int} {m : String}
    {d : Int × Int} (hsq : Sq r c) (hd0 : ¬(d.1 = 0 ∧ d.2 = 0))
    (hmem : m ∈ slide b isW (to_algebraic r c) r c d.1 d.2 8) :
    ∃ r2 c2, Sq r2 c2 ∧ ¬(r = r2 ∧ c = c2) ∧
      m = to_algebraic r c ++ to_algebraic r2 c2 ∧
      (cell b r2 c2 = ' ' ∨ isW ≠ (cell b r2 c2).isUpper) ∧
      (∀ targets : List Char, cell b r c ∈ targets → cell b r c ≠ ' ' →
        ray_hits b targets r2 c2 (-d.1) (-d.2) 8 = true) := by
  obtain ⟨k, hk1, hk8, hmid, hend, hstr, hdst⟩ := slide_spec 8 r c m hmem
  refine ⟨r + k * d.1, c + k * d.2, inB_iff.mp hend, ?_, hstr, hdst, ?_⟩
  · rintro ⟨h1, h2⟩
    have e1 : (k : Int) * d.1 = 0 := by omega
    have e2 : (k : Int) * d.2 = 0 := by omega
    have hk0 : (k : Int) ≠ 0 := by
      intro h; exact absurd (by exact_mod_cast h) (by omega : ¬k = 0)
    exact hd0 ⟨by
        rcases mul_eq_zero.mp e1 with h | h
        · exact absurd h hk0
        · exact h,
      by
        rcases mul_eq_zero.mp e2 with h | h
        · exact absurd h hk0
        · exact h⟩
  · intro targets htg hne
    refine ray_hits_path 8 k (r + k * d.1) (c + k * d.2) hk1 hk8 ?_ ?_ ?_ ?_
    · intro j hj1 hjk
      have hkj1 : 1 ≤ k - j := by omega
      have hkj2 : k - j < k := by omega
      have := hmid (k - j) hkj1 hkj2
      have er : r + k * d.1 + (j : Int) * -d.1 = r + ((k - j : Nat) : Int) * d.1 := by
        have : ((k - j : Nat) : Int) = (k : Int) - (j : Int) := by omega
        rw [this]; ring
      have ec : c + k * d.2 + (j : Int) * -d.2 = c + ((k - j : Nat) : Int) * d.2 := by
        have : ((k - j : Nat) : Int) = (k : Int) - (j : Int) := by omega
        rw [this]; ring
      rw [er, ec]
      exact this
    · have er : r + k * d.1 + (k : Int) * -d.1 = r := by ring
      have ec : c + k * d.2 + (k : Int) * -d.2 = c := by ring
      rw [er, ec]
      exact inB_iff.mpr hsq
    · have er : r + k * d.1 + (k : Int) * -d.1 = r := by ring
      have ec : c + k * d.2 + (k : Int) * -d.2 = c := by ring
      rw [er, ec]
      exact hne
    · have er : r + k * d.1 + (k : Int) * -d.1 = r := by ring
      have ec : c + k * d.2 + (k : Int) * -d.2 = c := by ring
      rw [er, ec]
      exact htg

theorem nonzero_of_mem_straightDirs {d : Int × Int} (hd : d ∈ straightDirs) :
    ¬(d.1 = 0 ∧ d.2 = 0) := by fin_cases hd <;> decide

theorem nonzero_of_mem_diagonalDirs {d : Int × Int} (hd : d ∈ diagonalDirs) :
    ¬(d.1 = 0 ∧ d.2 = 0) := by fin_cases hd <;> decide

theorem not_space_of_toLower {ch x : Char} (hx : ch.toLower = x)
    (hxs : x ≠ ' ') (hxsp : x.toLower = x) : ch ≠ ' ' := by
  intro h
  rw [h] at hx
  exact hxs (by simpa using hx.symm)

theorem shape_of_append {m : String} {r c r2 c2 : Int} (hsq : Sq r c)
    (hsq2 : Sq r2 c2) (hne : ¬(r = r2 ∧ c = c2))
    (hm : m = to_algebraic r c ++ to_algebraic r2 c2) :
    Shape m r c r2 c2 [] := by
  refine ⟨hsq, hsq2, ?_, Or.inl rfl, fun h => absurd rfl h, hne⟩
  rw [hm, String.data_append, to_algebraic_eq, to_algebraic_eq]
  rfl

theorem rook_branch {S : GameState} {W : Bool} {r c : Int} {m : String}
    (hsq : Sq r c) (hw : W = (cell S.board r c).isUpper)
    (hx : (cell S.board r c).toLower = 'r')
    (hm : m ∈ get_rook_moves S.board r c) : BranchOut S W r c m := by
  unfold get_rook_moves at hm
  simp only [List.mem_flatMap] at hm
  obtain ⟨d, hd, hmem⟩ := hm
  obtain ⟨r2, c2, hsq2, hnee, hstr, hdst, hray⟩ :=
    slide_core hsq (nonzero_of_mem_straightDirs hd) hmem
  refine ⟨r2, c2, [], shape_of_append hsq hsq2 hnee hstr, ?_⟩
  intro hA _
  have hpne : cell S.board r c ≠ ' ' :=
    not_space_of_toLower hx (by decide) (by decide)
  refine ⟨by rw [hw]; exact hdst, ?_, ?_, ?_, ?_⟩
  · intro hk
    have halpha := cell_mem_of_alpha hA r c
    have hpiece : cell S.board r c ∈
        [if W then 'R' else 'r', if W then 'Q' else 'q'] := by
      subst hw
      revert hx halpha
      generalize cell S.board r c = q
      intro hx halpha
      have h13 : q ∈
          [' ', 'p', 'r', 'n', 'b', 'q', 'k', 'P', 'R', 'N', 'B', 'Q', 'K'] := by
        simpa [alphabet] using halpha
      fin_cases h13 <;> revert hx <;> decide
    exact attacked_of_straight (neg_mem_straightDirs hd)
      (hray _ hpiece hpne)
  · intro h; rw [h] at hx; exact absurd hx (by decide)
  · intro h; rw [h] at hx; exact absurd hx (by decide)
  · intro h; rw [h] at hx; exact absurd hx (by decide)

theorem bishop_branch {S : GameState} {W : Bool} {r c : Int} {m : String}
    (hsq : Sq r c) (hw : W = (cell S.board r c).isUpper)
    (hx : (cell S.board r c).toLower = 'b')
    (hm : m ∈ get_bishop_moves S.board r c) : BranchOut S W r c m := by
  unfold get_bishop_moves at hm
  simp only [List.mem_flatMap] at hm
  obtain ⟨d, hd, hmem⟩ := hm
  have hd' : d ∈ diagonalDirs := by
    simp only [diagonalDirs]
    fin_cases hd <;> decide
  obtain ⟨r2, c2, hsq2, hnee, hstr, hdst, hray⟩ :=
    slide_core hsq (nonzero_of_mem_diagonalDirs hd') hmem
  refine ⟨r2, c2, [], shape_of_append hsq hsq2 hnee hstr, ?_⟩
  intro hA _
  have hpne : cell S.board r c ≠ ' ' :=
    not_space_of_toLower hx (by decide) (by decide)
  refine ⟨by rw [hw]; exact hdst, ?_, ?_, ?_, ?_⟩
  · intro hk
    have halpha := cell_mem_of_alpha hA r c
    have hpiece : cell S.board r c ∈
        [if W then 'B' else 'b', if W then 'Q' else 'q'] := by
      subst hw
      revert hx halpha
      generalize cell S.board r c = q
      intro hx halpha
      have h13 : q ∈
          [' ', 'p', 'r', 'n', 'b', 'q', 'k', 'P', 'R', 'N', 'B', 'Q', 'K'] := by
        simpa [alphabet] using halpha
      fin_cases h13 <;> revert hx <;> decide
    exact attacked_of_diag (neg_mem_diagonalDirs hd')
      (hray _ hpiece hpne)
  · intro h; rw [h] at hx; exact absurd hx (by decide)
  · intro h; rw [h] at hx; exact absurd hx (by decide)
  · intro h; rw [h] at hx; exact absurd hx (by decide)

theorem queen_branch {S : GameState} {W : Bool} {r c : Int} {m : String}
    (hsq : Sq r c) (hw : W = (cell S.board r c).isUpper)
    (hx : (cell S.board r c).toLower = 'q')
    (hm : m ∈ get_queen_moves S.board r c) : BranchOut S W r c m := by
  have hpne : cell S.board r c ≠ ' ' :=
    not_space_of_toLower hx (by decide) (by decide)
  unfold get_queen_moves at hm
  rcases List.mem_append.mp hm with hm | hm
  · unfold get_rook_moves at hm
    simp only [List.mem_flatMap] at hm
    obtain ⟨d, hd, hmem⟩ := hm
    obtain ⟨r2, c2, hsq2, hnee, hstr, hdst, hray⟩ :=
      slide_core hsq (nonzero_of_mem_straightDirs hd) hmem
    refine ⟨r2, c2, [], shape_of_append hsq hsq2 hnee hstr, ?_⟩
    intro hA _
    refine ⟨by rw [hw]; exact hdst, ?_, ?_, ?_, ?_⟩
    · intro hk
      have halpha := cell_mem_of_alpha hA r c
      have hpiece : cell S.board r c ∈
          [if W then 'R' else 'r', if W then 'Q' else 'q'] := by
        subst hw
        revert hx halpha
        generalize cell S.board r c = q
        intro hx halpha
        have h13 : q ∈
            [' ', 'p', 'r', 'n', 'b', 'q', 'k', 'P', 'R', 'N', 'B', 'Q', 'K'] := by
          simpa [alphabet] using halpha
        fin_cases h13 <;> revert hx <;> decide
      exact attacked_of_straight (neg_mem_straightDirs hd) (hray _ hpiece hpne)
    · intro h; rw [h] at hx; exact absurd hx (by decide)
    · intro h; rw [h] at hx; exact absurd hx (by decide)
    · intro h; rw [h] at hx; exact absurd hx (by decide)
  · unfold get_bishop_moves at hm
    simp only [List.mem_flatMap] at hm
    obtain ⟨d, hd, hmem⟩ := hm
    have hd' : d ∈ diagonalDirs := by
      simp only [diagonalDirs]
      fin_cases hd <;> decide
    obtain ⟨r2, c2, hsq2, hnee, hstr, hdst, hray⟩ :=
      slide_core hsq (nonzero_of_mem_diagonalDirs hd') hmem
    refine ⟨r2, c2, [], shape_of_append hsq hsq2 hnee hstr, ?_⟩
    intro hA _
    refine ⟨by rw [hw]; exact hdst, ?_, ?_, ?_, ?_⟩
    · intro hk
      have halpha := cell_mem_of_alpha hA r c
      have hpiece : cell S.board r c ∈
          [if W then 'B' else 'b', if W then 'Q' else 'q'] := by
        subst hw
        revert hx halpha
        generalize cell S.board r c = q
        intro hx halpha
        have h13 : q ∈
            [' ', 'p', 'r', 'n', 'b', 'q', 'k', 'P', 'R', 'N', 'B', 'Q', 'K'] := by
          simpa [alphabet] using halpha
        fin_cases h13 <;> revert hx <;> decide
      exact attacked_of_diag (neg_mem_diagonalDirs hd') (hray _ hpiece hpne)
    · intro h; rw [h] at hx; exact absurd hx (by decide)
    · intro h; rw [h] at hx; exact absurd hx (by decide)
    · intro h; rw [h] at hx; exact absurd hx (by decide)

theorem offset_spec {dirs : List (Int × Int)} {b : Board} {r c : Int}
    {m : String} (hm : m ∈ offset_moves dirs b r c) :
    ∃ d ∈ dirs, inB (r + d.1) (c + d.2) = true ∧
      m = to_algebraic r c ++ to_algebraic (r + d.1) (c + d.2) ∧
      (cell b (r + d.1) (c + d.2) = ' ' ∨
        (cell b r c).isUpper ≠ (cell b (r + d.1) (c + d.2)).isUpper) := by
  unfold offset_moves at hm
  simp only [List.mem_filterMap] at hm
  obtain ⟨d, hd, hf⟩ := hm
  refine ⟨d, hd, ?_⟩
  by_cases hin : inB (r + d.1) (c + d.2)
  · rw [if_pos hin] at hf
    by_cases hsp : cell b (r + d.1) (c + d.2) = ' '
    · rw [if_pos hsp] at hf
      injection hf with hf
      exact ⟨hin, hf.symm, Or.inl hsp⟩
    · rw [if_neg hsp] at hf
      by_cases hcol : (cell b r c).isUpper ≠ (cell b (r + d.1) (c + d.2)).isUpper
      · rw [if_pos hcol] at hf
        injection hf with hf
        exact ⟨hin, hf.symm, Or.inr hcol⟩
      · rw [if_neg hcol] at hf
        exact absurd hf (by simp)
  · rw [if_neg hin] at hf
    exact absurd hf (by simp)

theorem knight_branch {S : GameState} {W : Bool} {r c : Int} {m : String}
    (hsq : Sq r c) (hw : W = (cell S.board r c).isUpper)
    (hx : (cell S.board r c).toLower = 'n')
    (hm : m ∈ get_knight_moves S.board r c) : BranchOut S W r c m := by
  obtain ⟨d, hd, hin, hstr, hdst⟩ := offset_spec (hm : m ∈ offset_moves knightDirs S.board r c)
  have hnee : ¬(r = r + d.1 ∧ c = c + d.2) := by
    fin_cases hd <;> omega
  refine ⟨r + d.1, c + d.2, [],
    shape_of_append hsq (inB_iff.mp hin) hnee hstr, ?_⟩
  intro hA _
  refine ⟨by rw [hw]; exact hdst, ?_, ?_, ?_, ?_⟩
  · intro hk
    have halpha := cell_mem_of_alpha hA r c
    have hgoal : cell S.board r c = if W then 'N' else 'n' := by
      subst hw
      revert hx halpha
      generalize cell S.board r c = q
      intro hx halpha
      have h13 : q ∈
          [' ', 'p', 'r', 'n', 'b', 'q', 'k', 'P', 'R', 'N', 'B', 'Q', 'K'] := by
        simpa [alphabet] using halpha
      fin_cases h13 <;> revert hx <;> decide
    refine attacked_of_knight (d := (-d.1, -d.2)) (neg_mem_knightDirs hd) ?_ ?_
    · have er : r + d.1 + (-d.1, -d.2).1 = r := by simp
      have ec : c + d.2 + (-d.1, -d.2).2 = c := by simp
      rw [er, ec]
      exact inB_iff.mpr hsq
    · have er : r + d.1 + (-d.1, -d.2).1 = r := by simp
      have ec : c + d.2 + (-d.1, -d.2).2 = c := by simp
      rw [er, ec]
      exact hgoal
  · intro h; rw [h] at hx; exact absurd hx (by decide)
  · intro h; rw [h] at hx; exact absurd hx (by decide)
  · intro h; rw [h] at hx; exact absurd hx (by decide)

theorem king_branch {S : GameState} {W : Bool} {r c : Int} {m : String}
    (hsq : Sq r c) (hw : W = (cell S.board r c).isUpper)
    (hx : (cell S.board r c).toLower = 'k')
    (hm : m ∈ get_king_moves S.board r c) : BranchOut S W r c m := by
  obtain ⟨d, hd, hin, hstr, hdst⟩ := offset_spec (hm : m ∈ offset_moves kingDirs S.board r c)
  have hnee : ¬(r = r + d.1 ∧ c = c + d.2) := by
    fin_cases hd <;> omega
  refine ⟨r + d.1, c + d.2, [],
    shape_of_append hsq (inB_iff.mp hin) hnee hstr, ?_⟩
  intro hA _
  refine ⟨by rw [hw]; exact hdst, ?_, ?_, ?_, ?_⟩
  · intro hk
    have halpha := cell_mem_of_alpha hA r c
    have hgoal : cell S.board r c = if W then 'K' else 'k' := by
      subst hw
      revert hx halpha
      generalize cell S.board r c = q
      intro hx halpha
      have h13 : q ∈
          [' ', 'p', 'r', 'n', 'b', 'q', 'k', 'P', 'R', 'N', 'B', 'Q', 'K'] := by
        simpa [alphabet] using halpha
      fin_cases h13 <;> revert hx <;> decide
    refine attacked_of_king (d := (-d.1, -d.2)) (neg_mem_kingDirs hd) ?_ ?_
    · have er : r + d.1 + (-d.1, -d.2).1 = r := by simp
      have ec : c + d.2 + (-d.1, -d.2).2 = c := by simp
      rw [er, ec]
      exact inB_iff.mpr hsq
    · have er : r + d.1 + (-d.1, -d.2).1 = r := by simp
      have ec : c + d.2 + (-d.1, -d.2).2 = c := by simp
      rw [er, ec]
      exact hgoal
  · intro h; rw [h] at hx; exact absurd hx (by decide)
  · intro _ h2
    exact absurd h2 (by fin_cases hd <;> omega)
  · intro h; rw [h] at hx; exact absurd hx (by decide)

theorem pawn_moves_expand (selfState : GameState) (board : Board) (r c : Int) :
    get_pawn_moves selfState board r c =
      (pawn_base_moves board r c).flatMap fun mb =>
        promotionPieces.map fun p => handle_promotion selfState mb p := rfl

theorem rank_value {r : Int} (h0 : 0 ≤ r) (h8 : r < 8) :
    (((rankChar r).toNat : Int)) - 48 = 8 - r := by
  interval_cases r <;> decide

/-- Case analysis of the pre-expansion pawn move list. -/
theorem pawn_base_spec {board : Board} {r c : Int} {mb : String} (hsq : Sq r c)
    (hm : mb ∈ pawn_base_moves board r c) :
    ∃ r2 c2, Sq r2 c2 ∧ ¬(r = r2 ∧ c = c2) ∧
      mb = to_algebraic r c ++ to_algebraic r2 c2 ∧
      ((c2 = c ∧ r2 = r + (if (cell board r c).isUpper then -1 else 1) ∧
          cell board r2 c2 = ' ') ∨
       (c2 = c ∧ r2 = r + 2 * (if (cell board r c).isUpper then -1 else 1) ∧
          (if (cell board r c).isUpper then r = 6 else r = 1) ∧
          cell board (r + (if (cell board r c).isUpper then -1 else 1)) c = ' ' ∧
          cell board r2 c2 = ' ') ∨
       ((c2 = c - 1 ∨ c2 = c + 1) ∧
          r2 = r + (if (cell board r c).isUpper then -1 else 1) ∧
          cell board r2 c2 ≠ ' ' ∧
          (cell board r c).isUpper ≠ (cell board r2 c2).isUpper)) := by
  obtain ⟨hr0, hr8, hc0, hc8⟩ := hsq
  unfold pawn_base_moves at hm
  by_cases hW : (cell board r c).isUpper = true <;>
    simp only [hW, if_true, if_false, Bool.false_eq_true] at hm ⊢ <;>
    [skip; skip] <;> rcases List.mem_append.mp hm with hf | ha
  case pos.inl =>
    by_cases h1 : 0 ≤ r + -1 ∧ r + -1 < 8 ∧ cell board (r + -1) c = ' '
    · rw [if_pos h1] at hf
      have hrank : ((((to_algebraic r c).data.getD 1 '0').toNat : Int) - 48) = 8 - r := by
        rw [to_algebraic_eq]
        exact rank_value hr0 hr8
      by_cases h2 : ((((to_algebraic r c).data.getD 1 '0').toNat : Int) - 48) = 2
      · rw [if_pos h2] at hf
        have hr6 : r = 6 := by omega
        by_cases h3 : 0 ≤ r + 2 * -1 ∧ r + 2 * -1 < 8 ∧ cell board (r + 2 * -1) c = ' '
        · rw [if_pos h3] at hf
          simp only [List.mem_cons, List.not_mem_nil, or_false] at hf
          rcases hf with hf | hf
          · exact ⟨r + -1, c, ⟨by omega, by omega, hc0, hc8⟩, by omega, hf,
              Or.inl ⟨rfl, rfl, h1.2.2⟩⟩
          · exact ⟨r + 2 * -1, c, ⟨by omega, by omega, hc0, hc8⟩, by omega, hf,
              Or.inr (Or.inl ⟨rfl, rfl, hr6, h1.2.2, h3.2.2⟩)⟩
        · rw [if_neg h3] at hf
          simp only [List.mem_cons, List.not_mem_nil, or_false] at hf
          exact ⟨r + -1, c, ⟨by omega, by omega, hc0, hc8⟩, by omega, hf,
            Or.inl ⟨rfl, rfl, h1.2.2⟩⟩
      · rw [if_neg h2] at hf
        simp only [List.mem_cons, List.not_mem_nil, or_false] at hf
        exact ⟨r + -1, c, ⟨by omega, by omega, hc0, hc8⟩, by omega, hf,
          Or.inl ⟨rfl, rfl, h1.2.2⟩⟩
    · rw [if_neg h1] at hf
      simp at hf
  case pos.inr =>
    simp only [List.mem_filterMap, List.mem_cons, List.not_mem_nil, or_false]
      at ha
    obtain ⟨d, hd, hf⟩ := ha
    rcases hd with hd | hd <;> subst hd
    · by_cases hin : inB (r + -1) (c + -1)
      · rw [if_pos hin] at hf
        by_cases hcond : cell board (r + -1) (c + -1) ≠ ' ' ∧
            ¬true = (cell board (r + -1) (c + -1)).isUpper
        · rw [if_pos hcond] at hf
          injection hf with hf
          exact ⟨r + -1, c + -1, inB_iff.mp hin, by omega, hf.symm,
            Or.inr (Or.inr ⟨Or.inl rfl, rfl, hcond.1, fun h2 => hcond.2 h2⟩)⟩
        · rw [if_neg hcond] at hf
          exact absurd hf (by simp)
      · rw [if_neg hin] at hf
        exact absurd hf (by simp)
    · by_cases hin : inB (r + -1) (c + 1)
      · rw [if_pos hin] at hf
        by_cases hcond : cell board (r + -1) (c + 1) ≠ ' ' ∧
            ¬true = (cell board (r + -1) (c + 1)).isUpper
        · rw [if_pos hcond] at hf
          injection hf with hf
          exact ⟨r + -1, c + 1, inB_iff.mp hin, by omega, hf.symm,
            Or.inr (Or.inr ⟨Or.inr rfl, rfl, hcond.1, fun h2 => hcond.2 h2⟩)⟩
        · rw [if_neg hcond] at hf
          exact absurd hf (by simp)
      · rw [if_neg hin] at hf
        exact absurd hf (by simp)
  case neg.inl =>
    by_cases h1 : 0 ≤ r + 1 ∧ r + 1 < 8 ∧ cell board (r + 1) c = ' '
    · rw [if_pos h1] at hf
      have hrank : ((((to_algebraic r c).data.getD 1 '0').toNat : Int) - 48) = 8 - r := by
        rw [to_algebraic_eq]
        exact rank_value hr0 hr8
      by_cases h2 : ((((to_algebraic r c).data.getD 1 '0').toNat : Int) - 48) = 7
      · rw [if_pos h2] at hf
        have hr1 : r = 1 := by omega
        by_cases h3 : 0 ≤ r + 2 * 1 ∧ r + 2 * 1 < 8 ∧ cell board (r + 2 * 1) c = ' '
        · rw [if_pos h3] at hf
          simp only [List.mem_cons, List.not_mem_nil, or_false] at hf
          rcases hf with hf | hf
          · exact ⟨r + 1, c, ⟨by omega, by omega, hc0, hc8⟩, by omega, hf,
              Or.inl ⟨rfl, rfl, h1.2.2⟩⟩
          · exact ⟨r + 2 * 1, c, ⟨by omega, by omega, hc0, hc8⟩, by omega, hf,
              Or.inr (Or.inl ⟨rfl, rfl, hr1, h1.2.2, h3.2.2⟩)⟩
        · rw [if_neg h3] at hf
          simp only [List.mem_cons, List.not_mem_nil, or_false] at hf
          exact ⟨r + 1, c, ⟨by omega, by omega, hc0, hc8⟩, by omega, hf,
            Or.inl ⟨rfl, rfl, h1.2.2⟩⟩
      · rw [if_neg h2] at hf
        simp only [List.mem_cons, List.not_mem_nil, or_false] at hf
        exact ⟨r + 1, c, ⟨by omega, by omega, hc0, hc8⟩, by omega, hf,
          Or.inl ⟨rfl, rfl, h1.2.2⟩⟩
    · rw [if_neg h1] at hf
      simp at hf
  case neg.inr =>
    simp only [List.mem_filterMap, List.mem_cons, List.not_mem_nil, or_false]
      at ha
    obtain ⟨d, hd, hf⟩ := ha
    rcases hd with hd | hd <;> subst hd <;> dsimp only at hf
    · by_cases hin : inB (r + 1) (c + -1)
      · rw [if_pos hin] at hf
        by_cases hcond : cell board (r + 1) (c + -1) ≠ ' ' ∧
            false ≠ (cell board (r + 1) (c + -1)).isUpper
        · rw [if_pos hcond] at hf
          injection hf with hf
          exact ⟨r + 1, c + -1, inB_iff.mp hin, by omega, hf.symm,
            Or.inr (Or.inr ⟨Or.inl rfl, rfl, hcond.1, fun h2 => hcond.2 h2⟩)⟩
        · rw [if_neg hcond] at hf
          exact absurd hf (by simp)
      · rw [if_neg hin] at hf
        exact absurd hf (by simp)
    · by_cases hin : inB (r + 1) (c + 1)
      · rw [if_pos hin] at hf
        by_cases hcond : cell board (r + 1) (c + 1) ≠ ' ' ∧
            false ≠ (cell board (r + 1) (c + 1)).isUpper
        · rw [if_pos hcond] at hf
          injection hf with hf
          exact ⟨r + 1, c + 1, inB_iff.mp hin, by omega, hf.symm,
            Or.inr (Or.inr ⟨Or.inr rfl, rfl, hcond.1, fun h2 => hcond.2 h2⟩)⟩
        · rw [if_neg hcond] at hf
          exact absurd hf (by simp)
      · rw [if_neg hin] at hf
        exact absurd hf (by simp)

theorem pawn_facts {S : GameState} {W : Bool} {r c r2 c2 : Int}
    (hsq : Sq r c) (hw : W = (cell S.board r c).isUpper)
    (hx : (cell S.board r c).toLower = 'p')
    (hD : (c2 = c ∧ r2 = r + (if (cell S.board r c).isUpper then -1 else 1) ∧
          cell S.board r2 c2 = ' ') ∨
       (c2 = c ∧ r2 = r + 2 * (if (cell S.board r c).isUpper then -1 else 1) ∧
          (if (cell S.board r c).isUpper then r = 6 else r = 1) ∧
          cell S.board (r + (if (cell S.board r c).isUpper then -1 else 1)) c = ' ' ∧
          cell S.board r2 c2 = ' ') ∨
       ((c2 = c - 1 ∨ c2 = c + 1) ∧
          r2 = r + (if (cell S.board r c).isUpper then -1 else 1) ∧
          cell S.board r2 c2 ≠ ' ' ∧
          (cell S.board r c).isUpper ≠ (cell S.board r2 c2).isUpper)) :
    ∀ suffix, BoardAlpha S.board → epOK S → Facts S W r c r2 c2 suffix := by
  intro suffix hA _
  rw [← hw] at hD
  have hpawnchar : cell S.board r c = if W then 'P' else 'p' := by
    have halpha := cell_mem_of_alpha hA r c
    subst hw
    revert hx halpha
    generalize cell S.board r c = q
    intro hx halpha
    have h13 : q ∈
        [' ', 'p', 'r', 'n', 'b', 'q', 'k', 'P', 'R', 'N', 'B', 'Q', 'K'] := by
      simpa [alphabet] using halpha
    fin_cases h13 <;> revert hx <;> decide
  refine ⟨?_, ?_, ?_, ?_, ?_⟩
  · rcases hD with ⟨_, _, he⟩ | ⟨_, _, _, _, he⟩ | ⟨_, _, hne, hcol⟩
    · exact Or.inl he
    · exact Or.inl he
    · exact Or.inr hcol
  · intro hk
    rcases hD with ⟨_, _, he⟩ | ⟨_, _, _, _, he⟩ | ⟨hc2, hr2, hne, hcol⟩
    · rw [he] at hk; cases W <;> exact absurd hk (by decide)
    · rw [he] at hk; cases W <;> exact absurd hk (by decide)
    · refine attacked_of_pawn (p := (r, c)) (R := r2) (C := c2) ?_ ?_ ?_
      · cases W with
        | true =>
            rcases hc2 with hc2 | hc2
            · refine List.mem_cons.mpr (Or.inr (List.mem_cons.mpr (Or.inl ?_)))
              rw [Prod.mk.injEq]
              constructor <;> [skip; omega]
              rw [hr2]; simp
            · refine List.mem_cons.mpr (Or.inl ?_)
              rw [Prod.mk.injEq]
              constructor <;> [skip; omega]
              rw [hr2]; simp
        | false =>
            rcases hc2 with hc2 | hc2
            · refine List.mem_cons.mpr (Or.inr (List.mem_cons.mpr (Or.inl ?_)))
              rw [Prod.mk.injEq]
              constructor <;> [skip; omega]
              rw [hr2]; simp
            · refine List.mem_cons.mpr (Or.inl ?_)
              rw [Prod.mk.injEq]
              constructor <;> [skip; omega]
              rw [hr2]; simp
      · exact inB_iff.mpr hsq
      · exact hpawnchar
  · intro _ _ hcc hempty
    rcases hD with ⟨hc2, _, _⟩ | ⟨hc2, _, _, _, _⟩ | ⟨_, _, hne, _⟩
    · exact absurd hc2.symm hcc
    · exact absurd hc2.symm hcc
    · exact absurd hempty hne
  · intro hk'
    rw [hx] at hk'
    exact absurd hk' (by decide)
  · intro _ habs
    rcases hD with ⟨_, hr2, _⟩ | ⟨hc2, hr2, hrk, hmid, he⟩ | ⟨_, hr2, _, _⟩
    · exact absurd habs (by cases hW : W <;> simp [hW] at hr2 <;> omega)
    · refine ⟨hc2, ?_, ?_, ?_⟩
      · cases hW : W with
        | true =>
            simp [hW] at hr2 hrk
            exact Or.inl ⟨rfl, hrk, by omega⟩
        | false =>
            simp [hW] at hr2 hrk
            exact Or.inr ⟨rfl, hrk, by omega⟩
      · cases hW : W with
        | true =>
            simp [hW] at hr2 hrk hmid
            have e1 : (r + r2) / 2 = r + -1 := by
              rw [hrk] at hr2 ⊢
              rw [hr2]
              decide
            rw [e1]
            exact hmid
        | false =>
            simp [hW] at hr2 hrk hmid
            have e1 : (r + r2) / 2 = r + 1 := by
              rw [hrk] at hr2 ⊢
              rw [hr2]
              decide
            rw [e1]
            exact hmid
      · rw [← hc2]
        exact he
    · exact absurd habs (by cases hW : W <;> simp [hW] at hr2 <;> omega)

theorem handle_promotion_shape {selfS : GameState} {r c r2 c2 : Int}
    (hsq : Sq r c) (hsq2 : Sq r2 c2) {p : Char} (hp : p ∈ promotionPieces) :
    handle_promotion selfS (to_algebraic r c ++ to_algebraic r2 c2) p =
        to_algebraic r c ++ to_algebraic r2 c2 ∨
      (handle_promotion selfS (to_algebraic r c ++ to_algebraic r2 c2) p =
          (to_algebraic r c ++ to_algebraic r2 c2) ++ ⟨[p]⟩ ∧
        (r2 = 0 ∨ r2 = 7)) := by
  have hlow : p.toLower = p := by fin_cases hp <;> decide
  have h1 : from_algebraic!
      ⟨(to_algebraic r c ++ to_algebraic r2 c2).data.take 2⟩ = (r, c) := by
    rw [to_algebraic_eq r c, to_algebraic_eq r2 c2]
    exact decode_fileRank! hsq _
  have h2 : from_algebraic!
      ⟨((to_algebraic r c ++ to_algebraic r2 c2).data.drop 2).take 2⟩ =
        (r2, c2) := by
    rw [to_algebraic_eq r c, to_algebraic_eq r2 c2]
    exact decode_fileRank! hsq2 _
  unfold handle_promotion
  rw [h1, h2]
  by_cases hC : (cell selfS.board r c).toLower = 'p' ∧
      (((cell selfS.board r c).isUpper ∧ (r2, c2).1 = 0) ∨
        ((cell selfS.board r c).isLower ∧ (r2, c2).1 = 7))
  · rw [if_pos hC, hlow]
    refine Or.inr ⟨rfl, ?_⟩
    rcases hC.2 with ⟨_, h0⟩ | ⟨_, h7⟩
    · exact Or.inl h0
    · exact Or.inr h7
  · rw [if_neg hC]
    exact Or.inl rfl

theorem pawn_branch {selfS S : GameState} {W : Bool} {r c : Int} {m : String}
    (hsq : Sq r c) (hw : W = (cell S.board r c).isUpper)
    (hx : (cell S.board r c).toLower = 'p')
    (hm : m ∈ get_pawn_moves selfS S.board r c) : BranchOut S W r c m := by
  rw [pawn_moves_expand] at hm
  simp only [List.mem_flatMap, List.mem_map] at hm
  obtain ⟨mb, hmb, p, hp, hpe⟩ := hm
  obtain ⟨r2, c2, hsq2, hnee, hstr, hD⟩ := pawn_base_spec hsq hmb
  have hfacts := pawn_facts hsq hw hx hD
  subst hstr
  rcases @handle_promotion_shape selfS _ _ _ _ hsq hsq2 _ hp with heq | ⟨heq, hback⟩
  · rw [heq] at hpe
    subst hpe
    exact ⟨r2, c2, [], shape_of_append hsq hsq2 hnee rfl,
      fun hA hep => hfacts [] hA hep⟩
  · rw [heq] at hpe
    subst hpe
    refine ⟨r2, c2, [p], ?_, fun hA hep => hfacts [p] hA hep⟩
    refine ⟨hsq, hsq2, ?_, Or.inr ⟨p, hp, rfl⟩, fun _ => hback, hnee⟩
    rw [String.data_append, String.data_append, to_algebraic_eq,
      to_algebraic_eq]
    rfl

theorem ep_branch {S : GameState} {W : Bool} {r c : Int} {m : String}
    (hep : EpWF S) (hsq : Sq r c) (hw : W = (cell S.board r c).isUpper)
    (hWt : (S.turn == "w") = W)
    (hx : (cell S.board r c).toLower = 'p')
    (hm : m ∈ get_en_passant_moves S r c) : BranchOut S W r c m := by
  unfold get_en_passant_moves at hm
  split at hm
  · exact absurd hm (by simp)
  case h_2 tgt htgt =>
    rw [if_neg (by simp [hx])] at hm
    split at hm
    · exact absurd hm (by simp)
    case h_2 epRC hdec =>
      obtain ⟨er, ec, hsqe, htgteq⟩ := hep tgt htgt
      have hdec2 : from_algebraic tgt = some (er, ec) := by
        rw [htgteq, to_algebraic_eq]
        exact decode_fileRank hsqe _
      rw [hdec2] at hdec
      injection hdec with hdec
      subst hdec
      by_cases hC : (((cell S.board r c).isUpper ∧ r = 3) ∨
          (¬(cell S.board r c).isUpper = true ∧ r = 4)) ∧
          (c - (er, ec).2).natAbs = 1
      · rw [if_pos hC] at hm
        simp only [List.mem_cons, List.not_mem_nil, or_false] at hm
        have hcne : c ≠ ec := by
          have := hC.2
          simp only at this
          omega
        refine ⟨er, ec, [], ?_, ?_⟩
        · refine ⟨hsq, hsqe, ?_, Or.inl rfl, fun h => absurd rfl h,
            fun hcon => hcne hcon.2⟩
          rw [hm, htgteq, String.data_append, to_algebraic_eq,
            to_algebraic_eq]
          rfl
        · intro hA hepok
          obtain ⟨col, hc0, hc8, hcase⟩ := hepok tgt htgt
          rcases hcase with ⟨ht, hteq, hpawn, hemp⟩ | ⟨ht, hteq, hpawn, hemp⟩
          · -- white to move: target is (2, col)
            have hWtrue : W = true := by rw [← hWt]; exact ht
            have heqc : er = 2 ∧ ec = col := by
              have := to_algebraic_inj hsqe ⟨by omega, by omega, hc0, hc8⟩
                (htgteq.symm.trans hteq)
              exact this
            obtain ⟨her, hec⟩ := heqc
            subst her; subst hec
            have hr3 : r = 3 := by
              rcases hC.1 with ⟨_, h3⟩ | ⟨hnW, _⟩
              · exact h3
              · rw [← hw, hWtrue] at hnW
                exact absurd rfl hnW
            refine ⟨Or.inl hemp, ?_, ?_, ?_, ?_⟩
            · intro hk
              rw [hemp] at hk
              rw [hWtrue] at hk
              exact absurd hk (by decide)
            · intro _ _ _ _
              right
              rw [hr3]
              exact hpawn
            · intro hk'
              rw [hx] at hk'
              exact absurd hk' (by decide)
            · intro _ habs
              rw [hr3] at habs
              exact absurd habs (by decide)
          · -- black to move: target is (5, col)
            have hWfalse : W = false := by rw [← hWt]; exact ht
            have heqc : er = 5 ∧ ec = col := by
              have := to_algebraic_inj hsqe ⟨by omega, by omega, hc0, hc8⟩
                (htgteq.symm.trans hteq)
              exact this
            obtain ⟨her, hec⟩ := heqc
            subst her; subst hec
            have hr4 : r = 4 := by
              rcases hC.1 with ⟨hW', _⟩ | ⟨_, h4⟩
              · rw [← hw, hWfalse] at hW'
                exact absurd hW' (by decide)
              · exact h4
            refine ⟨Or.inl hemp, ?_, ?_, ?_, ?_⟩
            · intro hk
              rw [hemp] at hk
              rw [hWfalse] at hk
              exact absurd hk (by decide)
            · intro _ _ _ _
              right
              rw [hr4]
              exact hpawn
            · intro hk'
              rw [hx] at hk'
              exact absurd hk' (by decide)
            · intro _ habs
              rw [hr4] at habs
              exact absurd habs (by decide)
      · rw [if_neg hC] at hm
        exact absurd hm (by simp)

theorem castle_branch {S : GameState} {m : String}
    (hm : m ∈ get_casteling_moves S) :
    ∃ r1 c1 r2 c2 suffix, Shape m r1 c1 r2 c2 suffix ∧
      (BoardAlpha S.board → epOK S →
        Facts S (S.turn == "w") r1 c1 r2 c2 suffix) := by
  unfold get_casteling_moves at hm
  by_cases ht : S.turn = "w"
  · rw [if_pos ht] at hm
    have hW : (S.turn == "w") = true := by simp [ht]
    rcases List.mem_append.mp hm with hm | hm
    · by_cases hc : str_contains S.castling_rights 'K' ∧
          cell S.board 7 5 = ' ' ∧ cell S.board 7 6 = ' ' ∧
          is_king_in_check S.board true = false ∧
          is_square_attacked S.board 7 5 false = false ∧
          is_square_attacked S.board 7 6 false = false
      · rw [if_pos hc] at hm
        simp only [List.mem_cons, List.not_mem_nil, or_false] at hm
        subst hm
        refine ⟨7, 4, 7, 6, [], ⟨by decide, by decide, by decide, Or.inl rfl,
          fun h => absurd rfl h, by decide⟩, ?_⟩
        intro _ _
        rw [hW]
        obtain ⟨_, h5, h6, _, _, _⟩ := hc
        refine ⟨Or.inl h6, ?_, ?_, ?_, ?_⟩
        · intro hk; rw [h6] at hk; exact absurd hk (by decide)
        · intro _ _ _ _; exact Or.inl rfl
        · intro _ _
          refine ⟨rfl, rfl, Or.inl rfl, ?_⟩
          have e : ((4 : Int) + 6) / 2 = 5 := by decide
          rw [e]; exact h5
        · intro _ habs; exact absurd habs (by decide)
      · rw [if_neg hc] at hm; exact absurd hm (by simp)
    · by_cases hc : str_contains S.castling_rights 'Q' ∧
          cell S.board 7 3 = ' ' ∧ cell S.board 7 2 = ' ' ∧
          cell S.board 7 1 = ' ' ∧
          is_king_in_check S.board true = false ∧
          is_square_attacked S.board 7 3 false = false ∧
          is_square_attacked S.board 7 2 false = false
      · rw [if_pos hc] at hm
        simp only [List.mem_cons, List.not_mem_nil, or_false] at hm
        subst hm
        refine ⟨7, 4, 7, 2, [], ⟨by decide, by decide, by decide, Or.inl rfl,
          fun h => absurd rfl h, by decide⟩, ?_⟩
        intro _ _
        rw [hW]
        obtain ⟨_, h3, h2, _, _, _, _⟩ := hc
        refine ⟨Or.inl h2, ?_, ?_, ?_, ?_⟩
        · intro hk; rw [h2] at hk; exact absurd hk (by decide)
        · intro _ _ _ _; exact Or.inl rfl
        · intro _ _
          refine ⟨rfl, rfl, Or.inr rfl, ?_⟩
          have e : ((4 : Int) + 2) / 2 = 3 := by decide
          rw [e]; exact h3
        · intro _ habs; exact absurd habs (by decide)
      · rw [if_neg hc] at hm; exact absurd hm (by simp)
  · rw [if_neg ht] at hm
    have hW : (S.turn == "w") = false := by
      simp only [beq_eq_false_iff_ne, ne_eq]
      exact ht
    rcases List.mem_append.mp hm with hm | hm
    · by_cases hc : str_contains S.castling_rights 'k' ∧
          cell S.board 0 5 = ' ' ∧ cell S.board 0 6 = ' ' ∧
          is_king_in_check S.board false = false ∧
          is_square_attacked S.board 0 5 true = false ∧
          is_square_attacked S.board 0 6 true = false
      · rw [if_pos hc] at hm
        simp only [List.mem_cons, List.not_mem_nil, or_false] at hm
        subst hm
        refine ⟨0, 4, 0, 6, [], ⟨by decide, by decide, by decide, Or.inl rfl,
          fun h => absurd rfl h, by decide⟩, ?_⟩
        intro _ _
        rw [hW]
        obtain ⟨_, h5, h6, _, _, _⟩ := hc
        refine ⟨Or.inl h6, ?_, ?_, ?_, ?_⟩
        · intro hk; rw [h6] at hk; exact absurd hk (by decide)
        · intro _ _ _ _; exact Or.inl rfl
        · intro _ _
          refine ⟨rfl, rfl, Or.inl rfl, ?_⟩
          have e : ((4 : Int) + 6) / 2 = 5 := by decide
          rw [e]; exact h5
        · intro _ habs; exact absurd habs (by decide)
      · rw [if_neg hc] at hm; exact absurd hm (by simp)
    · by_cases hc : str_contains S.castling_rights 'q' ∧
          cell S.board 0 3 = ' ' ∧ cell S.board 0 2 = ' ' ∧
          cell S.board 0 1 = ' ' ∧
          is_king_in_check S.board false = false ∧
          is_square_attacked S.board 0 3 true = false ∧
          is_square_attacked S.board 0 2 true = false
      · rw [if_pos hc] at hm
        simp only [List.mem_cons, List.not_mem_nil, or_false] at hm
        subst hm
        refine ⟨0, 4, 0, 2, [], ⟨by decide, by decide, by decide, Or.inl rfl,
          fun h => absurd rfl h, by decide⟩, ?_⟩
        intro _ _
        rw [hW]
        obtain ⟨_, h3, h2, _, _, _, _⟩ := hc
        refine ⟨Or.inl h2, ?_, ?_, ?_, ?_⟩
        · intro hk; rw [h2] at hk; exact absurd hk (by decide)
        · intro _ _ _ _; exact Or.inl rfl
        · intro _ _
          refine ⟨rfl, rfl, Or.inr rfl, ?_⟩
          have e : ((4 : Int) + 2) / 2 = 3 := by decide
          rw [e]; exact h3
        · intro _ habs; exact absurd habs (by decide)
      · rw [if_neg hc] at hm; exact absurd hm (by simp)

theorem get_all_legal_moves_eq (selfState state : GameState) :
    get_all_legal_moves selfState state =
      (pseudo_moves selfState state).filter fun m =>
        !is_king_in_check (get_next_board_state state.board m)
          (state.turn == "w") := rfl

/-- Master characterization of every pseudo-legal move. -/
theorem pseudo_core {selfS S : GameState} {m : String} (hep : EpWF S)
    (hm : m ∈ pseudo_moves selfS S) :
    ∃ r1 c1 r2 c2 suffix, Shape m r1 c1 r2 c2 suffix ∧
      (BoardAlpha S.board → epOK S →
        Facts S (S.turn == "w") r1 c1 r2 c2 suffix) := by
  unfold pseudo_moves at hm
  rcases List.mem_append.mp hm with hm | hm
  · simp only [List.mem_flatMap] at hm
    obtain ⟨p, hpmem, hm⟩ := hm
    have hsq : Sq p.1 p.2 := sq_of_mem_allCoords hpmem
    by_cases hsp : cell S.board p.1 p.2 = ' '
    · rw [if_pos hsp] at hm; exact absurd hm (by simp)
    · rw [if_neg hsp] at hm
      by_cases hcolor : (S.turn == "w") = (cell S.board p.1 p.2).isUpper
      · rw [if_pos hcolor] at hm
        rcases List.mem_append.mp hm with hm | hm
        · unfold move_calculators at hm
          by_cases h1 : (cell S.board p.1 p.2).toLower = 'r'
          · rw [if_pos h1] at hm
            obtain ⟨r2, c2, suf, hS, hF⟩ := rook_branch hsq hcolor h1 hm
            exact ⟨p.1, p.2, r2, c2, suf, hS, hF⟩
          · rw [if_neg h1] at hm
            by_cases h2 : (cell S.board p.1 p.2).toLower = 'n'
            · rw [if_pos h2] at hm
              obtain ⟨r2, c2, suf, hS, hF⟩ := knight_branch hsq hcolor h2 hm
              exact ⟨p.1, p.2, r2, c2, suf, hS, hF⟩
            · rw [if_neg h2] at hm
              by_cases h3 : (cell S.board p.1 p.2).toLower = 'b'
              · rw [if_pos h3] at hm
                obtain ⟨r2, c2, suf, hS, hF⟩ := bishop_branch hsq hcolor h3 hm
                exact ⟨p.1, p.2, r2, c2, suf, hS, hF⟩
              · rw [if_neg h3] at hm
                by_cases h4 : (cell S.board p.1 p.2).toLower = 'q'
                · rw [if_pos h4] at hm
                  obtain ⟨r2, c2, suf, hS, hF⟩ := queen_branch hsq hcolor h4 hm
                  exact ⟨p.1, p.2, r2, c2, suf, hS, hF⟩
                · rw [if_neg h4] at hm
                  by_cases h5 : (cell S.board p.1 p.2).toLower = 'k'
                  · rw [if_pos h5] at hm
                    obtain ⟨r2, c2, suf, hS, hF⟩ := king_branch hsq hcolor h5 hm
                    exact ⟨p.1, p.2, r2, c2, suf, hS, hF⟩
                  · rw [if_neg h5] at hm
                    by_cases h6 : (cell S.board p.1 p.2).toLower = 'p'
                    · rw [if_pos h6] at hm
                      obtain ⟨r2, c2, suf, hS, hF⟩ :=
                        pawn_branch hsq hcolor h6 hm
                      exact ⟨p.1, p.2, r2, c2, suf, hS, hF⟩
                    · rw [if_neg h6] at hm
                      exact absurd hm (by simp)
        · by_cases h6 : (cell S.board p.1 p.2).toLower = 'p'
          · rw [if_pos h6] at hm
            obtain ⟨r2, c2, suf, hS, hF⟩ :=
              ep_branch hep hsq hcolor rfl h6 hm
            exact ⟨p.1, p.2, r2, c2, suf, hS, hF⟩
          · rw [if_neg h6] at hm
            exact absurd hm (by simp)
      · rw [if_neg hcolor] at hm
        exact absurd hm (by simp)
  · exact castle_branch hm

theorem shape_decode {m : String} {r1 c1 r2 c2 : Int} {suffix : List Char}
    (hS : Shape m r1 c1 r2 c2 suffix) :
    from_algebraic! ⟨m.data.take 2⟩ = (r1, c1) ∧
      from_algebraic! ⟨m.data.drop 2⟩ = (r2, c2) ∧
      from_algebraic! ⟨(m.data.drop 2).take 2⟩ = (r2, c2) := by
  obtain ⟨hsq1, hsq2, hdata, _, _, _⟩ := hS
  rw [hdata]
  refine ⟨?_, ?_, ?_⟩
  · exact decode_fileRank! hsq1 _
  · exact decode_fileRank! hsq2 _
  · exact decode_fileRank! hsq2 _

theorem shape_len4 {m : String} {r1 c1 r2 c2 : Int}
    (hS : Shape m r1 c1 r2 c2 []) : m.data.length = 4 := by
  obtain ⟨_, _, hdata, _, _, _⟩ := hS
  rw [hdata]; rfl

theorem shape_len5 {m : String} {r1 c1 r2 c2 : Int} {p : Char}
    (hS : Shape m r1 c1 r2 c2 [p]) :
    m.data.length = 5 ∧ m.data.getD 4 ' ' = p := by
  obtain ⟨_, _, hdata, _, _, _⟩ := hS
  rw [hdata]; exact ⟨rfl, rfl⟩

theorem promo_char_alpha {p : Char} (hp : p ∈ promotionPieces) (u : Bool) :
    (if u then p.toUpper else p.toLower) ∈ alphabet := by
  fin_cases hp <;> cases u <;> decide

/-- The board-mutation step keeps the 8×8 shape and the encoding alphabet,
for any structurally well-formed move. -/
theorem next_board_ok {board : Board} {m : String} {r1 c1 r2 c2 : Int}
    {suffix : List Char} (hB : Boardish board) (hA : BoardAlpha board)
    (hS : Shape m r1 c1 r2 c2 suffix) :
    Boardish (get_next_board_state board m) ∧
      BoardAlpha (get_next_board_state board m) := by
  obtain ⟨hdec1, hdec2, _⟩ := shape_decode hS
  obtain ⟨hsq1, hsq2, hdata, hsufOK, _, _⟩ := hS
  have hr1 : 0 ≤ r1 ∧ r1 < 8 := ⟨hsq1.1, hsq1.2.1⟩
  have hpmem : cell board r1 c1 ∈ alphabet := cell_mem_of_alpha hA r1 c1
  have hB1 : Boardish (setCell board r1 c1 ' ') := boardish_setCell hB hsq1 _
  have hA1 : BoardAlpha (setCell board r1 c1 ' ') :=
    alpha_setCell hA (by decide) _ _
  have hB2 : Boardish (setCell (setCell board r1 c1 ' ') r2 c2
      (cell board r1 c1)) := boardish_setCell hB1 hsq2 _
  have hA2 : BoardAlpha (setCell (setCell board r1 c1 ' ') r2 c2
      (cell board r1 c1)) := alpha_setCell hA1 hpmem _ _
  unfold get_next_board_state
  rw [hdec1, hdec2]
  by_cases hpw : (cell board r1 c1).toLower = 'p'
  · rw [if_pos hpw]
    by_cases hlen : m.data.length = 5
    · rw [if_pos hlen]
      rcases hsufOK with hsuf | ⟨p, hp, hsuf⟩
      · subst hsuf
        rw [hdata] at hlen
        simp at hlen
      · subst hsuf
        have hget : m.data.getD 4 ' ' = p := by rw [hdata]; rfl
        rw [hget]
        exact ⟨boardish_setCell hB2 hsq2 _,
          alpha_setCell hA2 (promo_char_alpha hp _) _ _⟩
    · rw [if_neg hlen]
      by_cases hepc : c1 ≠ c2 ∧ cell board r2 c2 = ' '
      · rw [if_pos hepc]
        exact ⟨boardish_setCell hB2 ⟨hsq1.1, hsq1.2.1, hsq2.2.2⟩ _,
          alpha_setCell hA2 (by decide) _ _⟩
      · rw [if_neg hepc]
        exact ⟨hB2, hA2⟩
  · rw [if_neg hpw]
    by_cases hkw : (cell board r1 c1).toLower = 'k'
    · rw [if_pos hkw]
      by_cases hcst : (c1 - c2).natAbs = 2
      · rw [if_pos hcst]
        have hsqe : Sq r1 (if c2 > c1 then (7 : Int) else 0) := by
          split <;> exact ⟨hsq1.1, hsq1.2.1, by omega, by omega⟩
        have hsqf : Sq r1 (if c2 > c1 then (5 : Int) else 3) := by
          split <;> exact ⟨hsq1.1, hsq1.2.1, by omega, by omega⟩
        have hB3 : Boardish (setCell (setCell (setCell board r1 c1 ' ')
            r2 c2 (cell board r1 c1)) r1 (if c2 > c1 then (5 : Int) else 3)
            (cell (setCell (setCell board r1 c1 ' ') r2 c2
              (cell board r1 c1)) r1 (if c2 > c1 then (7 : Int) else 0))) :=
          boardish_setCell hB2 hsqf _
        refine ⟨boardish_setCell hB3 hsqe _, ?_⟩
        have hA3 := alpha_setCell hA2 (cell_mem_of_alpha hA2 r1
          (if c2 > c1 then (7 : Int) else 0)) r1
          (if c2 > c1 then (5 : Int) else 3)
        exact alpha_setCell hA3 (by decide) _ _
      · rw [if_neg hcst]
        exact ⟨hB2, hA2⟩
    · rw [if_neg hkw]
      exact ⟨hB2, hA2⟩

theorem epOK_to_EpWF {S : GameState} (h : epOK S) : EpWF S := by
  intro t ht
  obtain ⟨col, h0, h8, hc⟩ := h t ht
  rcases hc with ⟨_, hteq, _, _⟩ | ⟨_, hteq, _, _⟩
  · exact ⟨2, col, ⟨by omega, by omega, h0, h8⟩, hteq⟩
  · exact ⟨5, col, ⟨by omega, by omega, h0, h8⟩, hteq⟩

theorem getElem?_le_sum : ∀ (l : List Nat) (i : Nat) (v : Nat),
    l[i]? = some v → v ≤ l.sum := by
  intro l
  induction l with
  | nil => intro i v h; simp at h
  | cons a t ih =>
      intro i v h
      cases i with
      | zero =>
          simp only [List.getElem?_cons_zero, Option.some.injEq] at h
          simp [← h]
      | succ i =>
          simp only [List.getElem?_cons_succ] at h
          have := ih i v h
          simp only [List.sum_cons]
          omega

theorem two_getElem?_le_sum : ∀ (l : List Nat) (i j : Nat) (v w : Nat),
    i ≠ j → l[i]? = some v → l[j]? = some w → v + w ≤ l.sum := by
  intro l
  induction l with
  | nil => intro i j v w hij hi; simp at hi
  | cons a t ih =>
      intro i j v w hij hi hj
      cases i with
      | zero =>
          cases j with
          | zero => exact absurd rfl hij
          | succ j =>
              simp only [List.getElem?_cons_zero, Option.some.injEq] at hi
              simp only [List.getElem?_cons_succ] at hj
              have := getElem?_le_sum t j w hj
              simp only [List.sum_cons]
              omega
      | succ i =>
          cases j with
          | zero =>
              simp only [List.getElem?_cons_zero, Option.some.injEq] at hj
              simp only [List.getElem?_cons_succ] at hi
              have := getElem?_le_sum t i v hi
              simp only [List.sum_cons]
              omega
          | succ j =>
              simp only [List.getElem?_cons_succ] at hi hj
              have := ih i j v w (by omega) hi hj
              simp only [List.sum_cons]
              omega

theorem two_pos_count : ∀ (l : List Char) (ch : Char) (i j : Nat), i ≠ j →
    l[i]? = some ch → l[j]? = some ch → 2 ≤ l.count ch := by
  intro l
  induction l with
  | nil => intro ch i j hij hi; simp at hi
  | cons a t ih =>
      intro ch i j hij hi hj
      cases i with
      | zero =>
          cases j with
          | zero => exact absurd rfl hij
          | succ j =>
              simp only [List.getElem?_cons_zero, Option.some.injEq] at hi
              simp only [List.getElem?_cons_succ] at hj
              have hmem : ch ∈ t := List.getElem?_mem hj
              have h1 : 1 ≤ t.count ch := List.count_pos_iff.mpr hmem
              rw [hi, List.count_cons_self]
              omega
      | succ i =>
          cases j with
          | zero =>
              simp only [List.getElem?_cons_zero, Option.some.injEq] at hj
              simp only [List.getElem?_cons_succ] at hi
              have hmem : ch ∈ t := List.getElem?_mem hi
              have h1 : 1 ≤ t.count ch := List.count_pos_iff.mpr hmem
              rw [hj, List.count_cons_self]
              omega
          | succ j =>
              simp only [List.getElem?_cons_succ] at hi hj
              have := ih ch i j (by omega) hi hj
              rw [List.count_cons]
              omega

theorem cell_getElem? {b : Board} (hB : Boardish b) {r c : Int} (h : Sq r c) :
    ∃ row, b[r.toNat]? = some row ∧ row[c.toNat]? = some (cell b r c) := by
  obtain ⟨hlen, hrows⟩ := hB
  have hr : r.toNat < b.length := by obtain ⟨a1, a2, a3, a4⟩ := h; omega
  have hc : c.toNat < (b[r.toNat]).length := by
    rw [hrows _ (List.getElem_mem hr)]
    obtain ⟨a1, a2, a3, a4⟩ := h; omega
  refine ⟨b[r.toNat], List.getElem?_eq_getElem hr, ?_⟩
  rw [List.getElem?_eq_getElem hc]
  unfold cell
  simp [List.getD_eq_getElem?_getD, List.getElem?_eq_getElem hr,
    List.getElem?_eq_getElem hc]

/-- With exactly one `ch` on the board, two squares holding `ch` coincide. -/
theorem king_unique {b : Board} (hB : Boardish b) {ch : Char}
    (hcount : countPiece b ch = 1) {r c r' c' : Int} (h : Sq r c)
    (h' : Sq r' c') (hc1 : cell b r c = ch) (hc2 : cell b r' c' = ch) :
    r = r' ∧ c = c' := by
  obtain ⟨row, hrow, hcell⟩ := cell_getElem? hB h
  obtain ⟨row', hrow', hcell'⟩ := cell_getElem? hB h'
  rw [hc1] at hcell
  rw [hc2] at hcell'
  have hmap : (b.map fun q => q.count ch)[r.toNat]? = some (row.count ch) := by
    rw [List.getElem?_map, hrow]; rfl
  have hmap' : (b.map fun q => q.count ch)[r'.toNat]? = some (row'.count ch) := by
    rw [List.getElem?_map, hrow']; rfl
  by_cases hrr : r.toNat = r'.toNat
  · have hre : r = r' := by
      obtain ⟨a1, a2, a3, a4⟩ := h; obtain ⟨b1, b2, b3, b4⟩ := h'; omega
    refine ⟨hre, ?_⟩
    by_contra hcne
    have hcn : c.toNat ≠ c'.toNat := by
      obtain ⟨a1, a2, a3, a4⟩ := h; obtain ⟨b1, b2, b3, b4⟩ := h'; omega
    have hroweq : row = row' := by
      rw [hrr] at hrow
      rw [hrow] at hrow'
      injection hrow'
    subst hroweq
    have h2 : 2 ≤ row.count ch := two_pos_count row ch c.toNat c'.toNat hcn
      hcell hcell'
    have hle := getElem?_le_sum _ _ _ hmap
    unfold countPiece at hcount
    omega
  · have hk1 : 1 ≤ row.count ch :=
      List.count_pos_iff.mpr (List.getElem?_mem hcell)
    have hk2 : 1 ≤ row'.count ch :=
      List.count_pos_iff.mpr (List.getElem?_mem hcell')
    have := two_getElem?_le_sum _ _ _ _ _ hrr hmap hmap'
    unfold countPiece at hcount
    omega

theorem king_in_check_of_attacked {b : Board} (hB : Boardish b)
    {flag : Bool} (hcount : countPiece b (if flag then 'K' else 'k') = 1)
    {r2 c2 : Int} (hsq2 : Sq r2 c2)
    (hcell : cell b r2 c2 = (if flag then 'K' else 'k'))
    (hatt : is_square_attacked b r2 c2 (!flag) = true) :
    is_king_in_check b flag = true := by
  unfold is_king_in_check
  dsimp only
  rcases hfind : allCoords.find?
      (fun p => cell b p.1 p.2 == (if flag then 'K' else 'k')) with _ | kp
  · exfalso
    have := List.find?_eq_none.mp hfind (r2, c2) (mem_allCoords hsq2)
    simp only [hcell] at this
    simp at this
  · simp only [hfind]
    have hp := List.find?_some hfind
    have hkpmem := List.mem_of_find?_eq_some hfind
    have hkpsq : Sq kp.1 kp.2 := sq_of_mem_allCoords hkpmem
    have hkpcell : cell b kp.1 kp.2 = (if flag then 'K' else 'k') :=
      beq_iff_eq.mp hp
    obtain ⟨he1, he2⟩ := king_unique hB hcount hkpsq hsq2 hkpcell hcell
    rw [← he1, ← he2] at hatt
    simpa using hatt

/-- A generated move never lands on the enemy king: that king is not in
check (the invariant), yet a capture square would be attacked. -/
theorem dst_not_enemy_king {S : GameState} (hB : Boardish S.board)
    (hKK : kingsOK S.board) (hopp : oppSafe S) {r2 c2 : Int} (hsq2 : Sq r2 c2)
    (hatt : cell S.board r2 c2 = enemyKing (S.turn == "w") →
      is_square_attacked S.board r2 c2 (S.turn == "w") = true) :
    cell S.board r2 c2 ≠ enemyKing (S.turn == "w") := by
  intro hk
  have hattacked := hatt hk
  unfold oppSafe at hopp
  cases hWb : (S.turn == "w") with
  | true =>
      rw [hWb] at hopp hattacked hk
      have := @king_in_check_of_attacked _ hB false hKK.2 _ _ hsq2
        (by simpa [enemyKing] using hk) (by simpa using hattacked)
      simp at hopp
      rw [this] at hopp
      exact absurd hopp (by decide)
  | false =>
      rw [hWb] at hopp hattacked hk
      have := @king_in_check_of_attacked _ hB true hKK.1 _ _ hsq2
        (by simpa [enemyKing] using hk) (by simpa using hattacked)
      simp at hopp
      rw [this] at hopp
      exact absurd hopp (by decide)

/-- The board mutation of a pseudo-legal move (of an invariant-satisfying
position) preserves the number of kings of each color. -/
theorem next_board_counts {S : GameState} (hB : Boardish S.board)
    (hA : BoardAlpha S.board) (hKK : kingsOK S.board) (hopp : oppSafe S)
    (hepok : epOK S) {m : String} (hm : m ∈ pseudo_moves S S) :
    countPiece (get_next_board_state S.board m) 'K' = countPiece S.board 'K' ∧
      countPiece (get_next_board_state S.board m) 'k' =
        countPiece S.board 'k' := by
  obtain ⟨r1, c1, r2, c2, suffix, hS, hFf⟩ :=
    pseudo_core (epOK_to_EpWF hepok) hm
  obtain ⟨hdisc, hatt, hF4, hF5, hF7⟩ := hFf hA hepok
  obtain ⟨hdec1, hdec2, _⟩ := shape_decode hS
  obtain ⟨hsq1, hsq2, hdata, hsufOK, hsufback, hne12⟩ := hS
  have hdstNoEnemy : cell S.board r2 c2 ≠ enemyKing (S.turn == "w") :=
    dst_not_enemy_king hB hKK hopp hsq2 hatt
  have hdstNoOwn : cell S.board r2 c2 ≠
      (if (S.turn == "w") then 'K' else 'k') := by
    rcases hdisc with hd | hd
    · rw [hd]; cases (S.turn == "w") <;> decide
    · intro he
      rw [he] at hd
      revert hd
      cases (S.turn == "w") <;> decide
  have hdstK : cell S.board r2 c2 ≠ 'K' ∧ cell S.board r2 c2 ≠ 'k' := by
    cases hWb : (S.turn == "w") <;>
      rw [hWb] at hdstNoEnemy hdstNoOwn <;>
      simp only [enemyKing, if_true, if_false] at hdstNoEnemy hdstNoOwn <;>
      simp at hdstNoEnemy hdstNoOwn <;>
      exact ⟨by assumption, by assumption⟩
  suffices hgen : ∀ ch, ch = 'K' ∨ ch = 'k' →
      countPiece (get_next_board_state S.board m) ch = countPiece S.board ch by
    exact ⟨hgen 'K' (Or.inl rfl), hgen 'k' (Or.inr rfl)⟩
  intro ch hch
  have hspace : ¬(' ' = ch) := by
    rcases hch with h | h <;> subst h <;> decide
  have hdstch : ¬(cell S.board r2 c2 = ch) := by
    rcases hch with h | h <;> subst h
    · exact hdstK.1
    · exact hdstK.2
  have hpawn_not : ∀ x : Char, x.toLower = 'p' → ¬(x = ch) := by
    intro x hx he
    subst he
    rcases hch with h | h <;> subst h <;> exact absurd hx (by decide)
  have hB1 : Boardish (setCell S.board r1 c1 ' ') := boardish_setCell hB hsq1 _
  have hB2 : Boardish (setCell (setCell S.board r1 c1 ' ') r2 c2
      (cell S.board r1 c1)) := boardish_setCell hB1 hsq2 _
  have e1 := countPiece_setCell hB hsq1 ' ' ch
  rw [if_neg hspace] at e1
  have hcb1 : cell (setCell S.board r1 c1 ' ') r2 c2 = cell S.board r2 c2 := by
    refine cell_setCell_ne hB hsq1 hsq2 ?_ ' '
    intro hcon
    exact hne12 ⟨hcon.1, hcon.2⟩
  have e2 := countPiece_setCell hB1 hsq2 (cell S.board r1 c1) ch
  rw [hcb1, if_neg hdstch] at e2
  have hb2eq : countPiece (setCell (setCell S.board r1 c1 ' ') r2 c2
      (cell S.board r1 c1)) ch = countPiece S.board ch := by omega
  unfold get_next_board_state
  rw [hdec1, hdec2]
  dsimp only
  by_cases hpw : (cell S.board r1 c1).toLower = 'p'
  · rw [if_pos hpw]
    by_cases hlen : m.data.length = 5
    · rw [if_pos hlen]
      rcases hsufOK with hsuf | ⟨p, hp, hsuf⟩
      · subst hsuf; rw [hdata] at hlen; simp at hlen
      · subst hsuf
        have hget : m.data.getD 4 ' ' = p := by rw [hdata]; rfl
        rw [hget]
        have hcb2dst : cell (setCell (setCell S.board r1 c1 ' ') r2 c2
            (cell S.board r1 c1)) r2 c2 = cell S.board r1 c1 :=
          cell_setCell_self hB1 hsq2 _
        have hpromo_not : ¬((if (cell S.board r1 c1).isUpper then p.toUpper
            else p.toLower) = ch) := by
          rcases hch with h | h <;> subst h <;> fin_cases hp <;>
            cases hU : (cell S.board r1 c1).isUpper <;> simp [hU] <;> decide
        have e3 := countPiece_setCell hB2 hsq2
          (if (cell S.board r1 c1).isUpper then p.toUpper else p.toLower) ch
        rw [hcb2dst, if_neg (hpawn_not _ hpw), if_neg hpromo_not] at e3
        omega
    · rw [if_neg hlen]
      by_cases hepc : c1 ≠ c2 ∧ cell S.board r2 c2 = ' '
      · rw [if_pos hepc]
        have hsufnil : suffix = [] := by
          rcases hsufOK with h | ⟨p, hp, h⟩
          · exact h
          · subst h
            exact absurd (by rw [hdata]; rfl) hlen
        have hF4res := hF4 hpw hsufnil hepc.1 hepc.2
        have hsqclear : Sq r1 c2 := ⟨hsq1.1, hsq1.2.1, hsq2.2.2.1, hsq2.2.2.2⟩
        have hclear_not : ¬(cell (setCell (setCell S.board r1 c1 ' ') r2 c2
            (cell S.board r1 c1)) r1 c2 = ch) := by
          by_cases hr12 : r1 = r2
          · subst hr12
            rw [cell_setCell_self hB1 hsq2 _]
            exact hpawn_not _ hpw
          · have hplow : (cell S.board r1 c2).toLower = 'p' := by
              rcases hF4res with h | h
              · exact absurd h hr12
              · exact h
            have hstep1 : cell (setCell S.board r1 c1 ' ') r1 c2 =
                cell S.board r1 c2 := by
              refine cell_setCell_ne hB hsq1 hsqclear ?_ ' '
              intro hcon
              exact hepc.1 hcon.2
            have hstep2 : cell (setCell (setCell S.board r1 c1 ' ') r2 c2
                (cell S.board r1 c1)) r1 c2 = cell (setCell S.board r1 c1 ' ')
                r1 c2 := by
              refine cell_setCell_ne hB1 hsq2 hsqclear ?_ _
              intro hcon
              exact hr12 hcon.1.symm
            rw [hstep2, hstep1]
            exact hpawn_not _ hplow
        have e4 := countPiece_setCell hB2 hsqclear ' ' ch
        rw [if_neg hclear_not, if_neg hspace] at e4
        omega
      · rw [if_neg hepc]
        exact hb2eq
  · rw [if_neg hpw]
    by_cases hkw : (cell S.board r1 c1).toLower = 'k'
    · rw [if_pos hkw]
      by_cases hcst : (c1 - c2).natAbs = 2
      · rw [if_pos hcst]
        obtain ⟨hr12, hc14, hc2or, hmid⟩ := hF5 hkw hcst
        rcases hc2or with hc26 | hc22
        · have hgt : c2 > c1 := by omega
          rw [if_pos hgt, if_pos hgt]
          have hmid5 : cell S.board r1 5 = ' ' := by
            rw [hc14, hc26] at hmid
            have e : ((4 : Int) + 6) / 2 = 5 := by decide
            rw [e] at hmid
            exact hmid
          have hsq5 : Sq r1 (5 : Int) := ⟨hsq1.1, hsq1.2.1, by omega, by omega⟩
          have hsq7 : Sq r1 (7 : Int) := ⟨hsq1.1, hsq1.2.1, by omega, by omega⟩
          have hcb2five : cell (setCell (setCell S.board r1 c1 ' ') r2 c2
              (cell S.board r1 c1)) r1 5 = ' ' := by
            have h1 : cell (setCell S.board r1 c1 ' ') r1 5 =
                cell S.board r1 5 := by
              refine cell_setCell_ne hB hsq1 hsq5 ?_ ' '
              intro hcon
              rw [hc14] at hcon
              exact absurd hcon.2 (by decide)
            have h2 : cell (setCell (setCell S.board r1 c1 ' ') r2 c2
                (cell S.board r1 c1)) r1 5 =
                cell (setCell S.board r1 c1 ' ') r1 5 := by
              refine cell_setCell_ne hB1 hsq2 hsq5 ?_ _
              intro hcon
              rw [hc26] at hcon
              exact absurd hcon.2 (by decide)
            rw [h2, h1, hmid5]
          have hB3 : Boardish (setCell (setCell (setCell S.board r1 c1 ' ')
              r2 c2 (cell S.board r1 c1)) r1 5
              (cell (setCell (setCell S.board r1 c1 ' ') r2 c2
                (cell S.board r1 c1)) r1 7)) := boardish_setCell hB2 hsq5 _
          have e3 := countPiece_setCell hB2 hsq5
            (cell (setCell (setCell S.board r1 c1 ' ') r2 c2
              (cell S.board r1 c1)) r1 7) ch
          rw [hcb2five, if_neg hspace] at e3
          have hcb3seven : cell (setCell (setCell (setCell S.board r1 c1 ' ')
              r2 c2 (cell S.board r1 c1)) r1 5
              (cell (setCell (setCell S.board r1 c1 ' ') r2 c2
                (cell S.board r1 c1)) r1 7)) r1 7 =
              cell (setCell (setCell S.board r1 c1 ' ') r2 c2
                (cell S.board r1 c1)) r1 7 := by
            refine cell_setCell_ne hB2 hsq5 hsq7 ?_ _
            intro hcon
            exact absurd hcon.2 (by decide)
          have e4 := countPiece_setCell hB3 hsq7 ' ' ch
          rw [hcb3seven, if_neg hspace] at e4
          omega
        · have hlt : ¬(c2 > c1) := by omega
          rw [if_neg hlt, if_neg hlt]
          have hmid3 : cell S.board r1 3 = ' ' := by
            rw [hc14, hc22] at hmid
            have e : ((4 : Int) + 2) / 2 = 3 := by decide
            rw [e] at hmid
            exact hmid
          have hsq3 : Sq r1 (3 : Int) := ⟨hsq1.1, hsq1.2.1, by omega, by omega⟩
          have hsq0 : Sq r1 (0 : Int) := ⟨hsq1.1, hsq1.2.1, by omega, by omega⟩
          have hcb2three : cell (setCell (setCell S.board r1 c1 ' ') r2 c2
              (cell S.board r1 c1)) r1 3 = ' ' := by
            have h1 : cell (setCell S.board r1 c1 ' ') r1 3 =
                cell S.board r1 3 := by
              refine cell_setCell_ne hB hsq1 hsq3 ?_ ' '
              intro hcon
              rw [hc14] at hcon
              exact absurd hcon.2 (by decide)
            have h2 : cell (setCell (setCell S.board r1 c1 ' ') r2 c2
                (cell S.board r1 c1)) r1 3 =
                cell (setCell S.board r1 c1 ' ') r1 3 := by
              refine cell_setCell_ne hB1 hsq2 hsq3 ?_ _
              intro hcon
              rw [hc22] at hcon
              exact absurd hcon.2 (by decide)
            rw [h2, h1, hmid3]
          have hB3 : Boardish (setCell (setCell (setCell S.board r1 c1 ' ')
              r2 c2 (cell S.board r1 c1)) r1 3
              (cell (setCell (setCell S.board r1 c1 ' ') r2 c2
                (cell S.board r1 c1)) r1 0)) := boardish_setCell hB2 hsq3 _
          have e3 := countPiece_setCell hB2 hsq3
            (cell (setCell (setCell S.board r1 c1 ' ') r2 c2
              (cell S.board r1 c1)) r1 0) ch
          rw [hcb2three, if_neg hspace] at e3
          have hcb3zero : cell (setCell (setCell (setCell S.board r1 c1 ' ')
              r2 c2 (cell S.board r1 c1)) r1 3
              (cell (setCell (setCell S.board r1 c1 ' ') r2 c2
                (cell S.board r1 c1)) r1 0)) r1 0 =
              cell (setCell (setCell S.board r1 c1 ' ') r2 c2
                (cell S.board r1 c1)) r1 0 := by
            refine cell_setCell_ne hB2 hsq3 hsq0 ?_ _
            intro hcon
            exact absurd hcon.2 (by decide)
          have e4 := countPiece_setCell hB3 hsq0 ' ' ch
          rw [hcb3zero, if_neg hspace] at e4
          omega
      · rw [if_neg hcst]
        exact hb2eq
    · rw [if_neg hkw]
      exact hb2eq

/-- One legal move preserves the combined invariant. -/
theorem inv_step {S : GameState} (hI : Inv S) {m : String}
    (hm : m ∈ get_all_legal_moves S S) :
    Inv (create_new_state_from_move S m) := by
  obtain ⟨hB, hA, hKK, hopp, hepok⟩ := hI
  rw [get_all_legal_moves_eq] at hm
  have hmm := List.mem_filter.mp hm
  have hpseudo := hmm.1
  have hfilt : is_king_in_check (get_next_board_state S.board m)
      (S.turn == "w") = false := by
    have h2 := hmm.2
    simpa using h2
  obtain ⟨r1, c1, r2, c2, suffix, hS, hFf⟩ :=
    pseudo_core (epOK_to_EpWF hepok) hpseudo
  obtain ⟨hdisc, hatt, hF4, hF5, hF7⟩ := hFf hA hepok
  obtain ⟨hdec1, hdec2, hdec3⟩ := shape_decode hS
  have hok := next_board_ok hB hA hS
  have hS' := hS
  obtain ⟨hsq1, hsq2, hdata, hsufOK, hsufback, hne12⟩ := hS'
  have hcounts := next_board_counts hB hA hKK hopp hepok hpseudo
  have hboard : (create_new_state_from_move S m).board =
      get_next_board_state S.board m := rfl
  have hturn : (create_new_state_from_move S m).turn =
      (if S.turn = "w" then "b" else "w") := rfl
  refine ⟨?_, ?_, ?_, ?_, ?_⟩
  · rw [hboard]; exact hok.1
  · rw [hboard]; exact hok.2
  · unfold kingsOK
    rw [hboard, hcounts.1, hcounts.2]
    exact hKK
  · unfold oppSafe
    rw [hboard, hturn]
    by_cases ht : S.turn = "w"
    · rw [if_pos ht]
      rw [(by decide : (!(("b" : String) == "w")) = true)]
      have hflag : (S.turn == "w") = true := by simp [ht]
      rw [hflag] at hfilt
      exact hfilt
    · rw [if_neg ht]
      have hflag : (S.turn == "w") = false := by
        simp only [beq_eq_false_iff_ne, ne_eq]
        exact ht
      rw [hflag] at hfilt
      rw [(by decide : (!(("w" : String) == "w")) = false)]
      exact hfilt
  · intro t ht
    have hep_field : (create_new_state_from_move S m).en_passant_target =
        (if (cell S.board r1 c1).toLower = 'p' ∧ (r1 - r2).natAbs = 2 then
          some (to_algebraic ((r1 + r2) / 2) c1) else none) := by
      unfold create_new_state_from_move
      dsimp only
      rw [hdec1, hdec2]
    rw [hep_field] at ht
    by_cases hcond : (cell S.board r1 c1).toLower = 'p' ∧
        (r1 - r2).natAbs = 2
    · rw [if_pos hcond] at ht
      injection ht with ht
      obtain ⟨hc2c1, hWcase, hmidE, hdstE⟩ := hF7 hcond.1 hcond.2
      subst hc2c1
      have hsufnil : suffix = [] := by
        by_contra hne
        rcases hsufback hne with h0 | h7 <;>
          rcases hWcase with ⟨_, _, hr24⟩ | ⟨_, _, hr23⟩ <;> omega
      have hlen4 : ¬(m.data.length = 5) := by
        rw [hdata, hsufnil]
        simp
      have hb2 : get_next_board_state S.board m =
          setCell (setCell S.board r1 c2 ' ') r2 c2 (cell S.board r1 c2) := by
        unfold get_next_board_state
        rw [hdec1, hdec2]
        dsimp only
        rw [if_pos hcond.1, if_neg hlen4, if_neg]
        intro hcon
        exact hcon.1 rfl
      have hB1 : Boardish (setCell S.board r1 c2 ' ') :=
        boardish_setCell hB hsq1 _
      rcases hWcase with ⟨hWt, hr16, hr24⟩ | ⟨hWf, hr11, hr23⟩
      · subst hr16
        subst hr24
        have hts : S.turn = "w" := by simpa using hWt
        have hdiv : ((6 : Int) + 4) / 2 = 5 := by decide
        refine ⟨c2, hsq1.2.2.1, hsq1.2.2.2, Or.inr ⟨?_, ?_, ?_, ?_⟩⟩
        · rw [hturn, if_pos hts]; decide
        · rw [← ht, hdiv]
        · rw [hboard, hb2, cell_setCell_self hB1 hsq2]
          exact hcond.1
        · rw [hboard, hb2]
          have hsq5 : Sq (5 : Int) c2 := ⟨by omega, by omega,
            hsq1.2.2.1, hsq1.2.2.2⟩
          have h1 : cell (setCell S.board 6 c2 ' ') 5 c2 =
              cell S.board 5 c2 := by
            refine cell_setCell_ne hB hsq1 hsq5 ?_ ' '
            intro hcon
            omega
          have h2 : cell (setCell (setCell S.board 6 c2 ' ') 4 c2
              (cell S.board 6 c2)) 5 c2 =
              cell (setCell S.board 6 c2 ' ') 5 c2 := by
            refine cell_setCell_ne hB1 hsq2 hsq5 ?_ _
            intro hcon
            omega
          rw [h2, h1]
          rw [hdiv] at hmidE
          exact hmidE
      · subst hr11
        subst hr23
        have hts : S.turn ≠ "w" := by
          intro hcon
          rw [hcon] at hWf
          exact absurd hWf (by decide)
        have hdiv : ((1 : Int) + 3) / 2 = 2 := by decide
        refine ⟨c2, hsq1.2.2.1, hsq1.2.2.2, Or.inl ⟨?_, ?_, ?_, ?_⟩⟩
        · rw [hturn, if_neg hts]; decide
        · rw [← ht, hdiv]
        · rw [hboard, hb2, cell_setCell_self hB1 hsq2]
          exact hcond.1
        · rw [hboard, hb2]
          have hsq2a : Sq (2 : Int) c2 := ⟨by omega, by omega,
            hsq1.2.2.1, hsq1.2.2.2⟩
          have h1 : cell (setCell S.board 1 c2 ' ') 2 c2 =
              cell S.board 2 c2 := by
            refine cell_setCell_ne hB hsq1 hsq2a ?_ ' '
            intro hcon
            omega
          have h2 : cell (setCell (setCell S.board 1 c2 ' ') 3 c2
              (cell S.board 1 c2)) 2 c2 =
              cell (setCell S.board 1 c2 ' ') 2 c2 := by
            refine cell_setCell_ne hB1 hsq2 hsq2a ?_ _
            intro hcon
            omega
          rw [h2, h1]
          rw [hdiv] at hmidE
          exact hmidE
    · rw [if_neg hcond] at ht
      exact absurd ht (by simp)

theorem inv_initial : Inv initial_state := by
  refine ⟨by unfold Boardish; decide, by unfold BoardAlpha alphabet; decide,
    by unfold kingsOK countPiece; decide, by unfold oppSafe; decide, ?_⟩
  intro t ht
  exact absurd ht (by simp [initial_state])

theorem inv_reachable {P : GameState} (h : Reachable P) : Inv P := by
  induction h with
  | init => exact inv_initial
  | step hr hm ih => exact inv_step ih hm

/-- C10: for every 8×8 board over the encoding alphabet held by a GameState
(whose en-passant field, when present, is a square label — the only value the
transition engine ever stores), applying the board-mutation step to any move
in `get_all_legal_moves` yields again an 8×8 grid over the same alphabet. -/
theorem C10_next_board_alphabet (S : GameState) (hB : Boardish S.board)
    (hA : BoardAlpha S.board) (hep : EpWF S) (m : String)
    (hm : m ∈ get_all_legal_moves S S) :
    Boardish (get_next_board_state S.board m) ∧
      BoardAlpha (get_next_board_state S.board m) := by
  rw [get_all_legal_moves_eq] at hm
  obtain ⟨r1, c1, r2, c2, suffix, hS, _⟩ :=
    pseudo_core hep (List.mem_filter.mp hm).1
  exact next_board_ok hB hA hS

/-- Witness for C10 at the initial position and the move `e2e4`. -/
theorem C10_next_board_alphabet_witness :
    Boardish (get_next_board_state initial_state.board "e2e4") ∧
      BoardAlpha (get_next_board_state initial_state.board "e2e4") :=
  C10_next_board_alphabet initial_state (by unfold Boardish; decide)
    (by unfold BoardAlpha alphabet; decide) (fun t ht => nomatch ht) "e2e4"
    (by decide)

/-- C6: from any position reachable from the initial position by legal moves,
applying any legal move yields a board with exactly one king per color. -/
theorem C6_kings_preserved (P : GameState) (hP : Reachable P) (m : String)
    (hm : m ∈ get_all_legal_moves P P) :
    countPiece (create_new_state_from_move P m).board 'K' = 1 ∧
      countPiece (create_new_state_from_move P m).board 'k' = 1 :=
  (inv_reachable (Reachable.step hP hm)).2.2.1

/-- Witness for C6 at the initial position and the move `e2e4`. -/
theorem C6_kings_preserved_witness :
    countPiece (create_new_state_from_move initial_state "e2e4").board 'K' = 1 ∧
      countPiece (create_new_state_from_move initial_state "e2e4").board 'k' = 1 :=
  C6_kings_preserved initial_state Reachable.init "e2e4" (by decide)

end ChessEngine
